import Mathlib

/-!
# immterm: scrollback history ring buffer

A shallow embedding of the history buffer of `term.go` (package `immterm`):
`usedBytes`, `unsafeFetch`, `DropHistory`, `appendHistory`, `dropOneLine`
and the threshold logic of `onScrollback`, together with
`normalizeHistoryConfig` and `Close`.

Conventions of the embedding.

* A byte is a `Nat`; `'\r'` is `13` and `'\n'` is `10`.  A Go `[]byte` or
  `string` is a `List Nat`.
* The Go `int` fields `size`, `head`, `tail`, `missed` are natural numbers:
  the package only ever stores non-negative values in them, and the counters
  stay far below `2^63`.  `usedBytes` is computed in `Int`, as the Go
  subtraction `size - (head - tail)` is signed.
* A run-time panic (index or slice bound out of range, negative `make`
  length, modulo by zero) and an exhausted iteration budget are both `none`.
  The two `for` loops take an explicit iteration budget (`fuel`).
* The mutexes are not modelled: every function below is the body that runs
  while `t.mu` is held.  `Close` is the sequential behaviour of `sync.Once`.
* A Go `float32` is an `F32`: a NaN, an infinity, or a finite value given as
  a multiple of `2^-149`; conversion and product round to nearest, ties to
  even.  The Go `int` fields of `HistoryConfig` are integers, and so is
  `triggerCount`; the sum `hc.Size + 1` of `normalizeHistoryConfig` wraps
  around as a 64-bit `int` does.
-/

namespace Immterm

/-- The Go struct `FetchResult`. -/
structure FetchResult where
  Screen : List (List Nat)
  History : List Nat
  Missed : Nat
deriving DecidableEq, Repr

/-- The part of `midterm.LockedTerminalContext` that `term.go` calls:
`PlainRenderLine(row)` and `PlainRender()`. -/
structure LockedTerminalContext where
  plainRenderLine : Int → List Nat
  plainRender : List (List Nat)

/-- The history fields of the Go struct `Term`.  The two callbacks are
recorded by whether they are non-nil. -/
structure Term where
  history : List Nat
  size : Nat
  head : Nat
  tail : Nat
  full : Bool
  missed : Nat
  triggerCount : Int
  onThreshold : Bool
  onThresholdWithFetch : Bool
deriving DecidableEq, Repr

/-- What `onScrollback` does with the callbacks: a synchronous call
`t.onThreshold()` or a dispatch `go t.onThresholdWithFetch(out)`. -/
inductive Event where
  | threshold : Event
  | thresholdWithFetch (out : FetchResult) : Event
deriving DecidableEq, Repr

/-- The Go slice expression `s[lo:hi]` on a slice whose capacity is its
length; it panics unless `lo ≤ hi ≤ len(s)`. -/
def slice (s : List Nat) (lo hi : Nat) : Option (List Nat) :=
  if lo ≤ hi ∧ hi ≤ s.length then some ((s.take hi).drop lo) else none

/-- The Go call `copy(dst[off:], src)`: the updated `dst` and the number of
bytes copied, `min(len(dst) - off, len(src))`; slicing panics when
`off > len(dst)`. -/
def copyAt (dst : List Nat) (off : Nat) (src : List Nat) : Option (List Nat × Nat) :=
  if off ≤ dst.length then
    let n := min (dst.length - off) src.length
    some (dst.take off ++ src.take n ++ dst.drop (off + n), n)
  else none

/-- The Go method `usedBytes`. -/
def usedBytes (t : Term) : Int :=
  if t.full then (t.size : Int)
  else if t.tail ≥ t.head then (t.tail : Int) - (t.head : Int)
  else (t.size : Int) - ((t.head : Int) - (t.tail : Int))

/-- The linearization performed by `unsafeFetch`: the value of `out.History`
after the three-way `if`. -/
def linearize (t : Term) : Option (List Nat) :=
  let used := usedBytes t
  if used < 0 then none
  else
    let out := List.replicate used.toNat 0
    if used > 0 then
      if t.full then
        (slice t.history t.head t.history.length).bind fun src1 =>
        (copyAt out 0 src1).bind fun r1 =>
        if t.size < t.head then none
        else
          (slice t.history 0 t.tail).bind fun src2 =>
          (copyAt r1.1 (t.size - t.head) src2).bind fun r2 =>
          some r2.1
      else if t.tail ≥ t.head then
        (slice t.history t.head (t.head + used.toNat)).bind fun src =>
        (copyAt out 0 src).bind fun r1 =>
        some r1.1
      else
        (slice t.history t.head t.history.length).bind fun src1 =>
        (copyAt out 0 src1).bind fun r1 =>
        (slice t.history 0 t.tail).bind fun src2 =>
        (copyAt r1.1 r1.2 src2).bind fun r2 =>
        some r2.1
    else some out

/-- The state change shared by `DropHistory` and the end of `unsafeFetch`:
`t.missed = 0; t.head = t.tail; t.full = false`. -/
def DropHistory (t : Term) : Term :=
  { t with missed := 0, head := t.tail, full := false }

/-- The Go method `unsafeFetch`: the result and the state afterwards. -/
def unsafeFetch (t : Term) (ltc : LockedTerminalContext) : Option (FetchResult × Term) :=
  (linearize t).bind fun hist =>
    some ({ Screen := ltc.plainRender, History := hist, Missed := t.missed },
          { t with missed := 0, head := t.tail, full := false })

/-- The `for t.usedBytes() > 0` loop of `dropOneLine`, with `foundCR` as loop
state. -/
def dropLoop : Nat → Term → Bool → Option Term
  | 0, _, _ => none
  | fuel + 1, t, foundCR =>
    if usedBytes t > 0 then
      match t.history[t.head]? with
      | none => none
      | some ch =>
        if t.size = 0 then none
        else
          let t1 := { t with head := (t.head + 1) % t.size }
          let t2 := if t1.full then { t1 with full := false } else t1
          if foundCR && ch == 10 then some t2
          else dropLoop fuel t2 (ch == 13)
    else some t

/-- The Go method `dropOneLine`. -/
def dropOneLine (fuel : Nat) (t : Term) : Option Term :=
  if usedBytes t = 0 then some t
  else
    (dropLoop fuel t false).bind fun t1 =>
      some { t1 with missed := t1.missed + 1 }

/-- The `for t.size-t.usedBytes() < need` loop of `appendHistory`. -/
def ensureSpace (lineFuel : Nat) : Nat → Term → Nat → Option Term
  | 0, _, _ => none
  | fuel + 1, t, need =>
    if (t.size : Int) - usedBytes t < (need : Int) then
      (dropOneLine lineFuel t).bind fun t1 => ensureSpace lineFuel fuel t1 need
    else some t

/-- The tail of `appendHistory`, after the eviction loop: the copy with
wrap-around and the update of `tail` and `full`. -/
def writeWrap (t : Term) (b : List Nat) : Option Term :=
  let need := b.length
  (copyAt t.history t.tail b).bind fun r1 =>
    let h2 : Option (List Nat) :=
      if r1.2 < need then
        (slice b r1.2 b.length).bind fun src =>
        (copyAt r1.1 0 src).bind fun r2 => some r2.1
      else some r1.1
    h2.bind fun hist =>
      if t.size = 0 then none
      else
        let t1 := { t with history := hist, tail := (t.tail + need) % t.size }
        some (if t1.tail = t1.head then { t1 with full := true } else t1)

/-- The Go method `appendHistory`. -/
def appendHistory (fuel : Nat) (t : Term) (b : List Nat) : Option Term :=
  if t.size = 0 then some t
  else
    let need := b.length
    if need > t.size then some { t with missed := t.missed + 1 }
    else (ensureSpace fuel fuel t need).bind fun t1 => writeWrap t1 b

/-- The Go method `onScrollback`: the state afterwards and the callbacks
invoked, in order. -/
def onScrollback (fuel : Nat) (t : Term) (row : Int) (ltc : LockedTerminalContext) :
    Option (Term × List Event) :=
  let used := usedBytes t
  let r : Option (Term × List Event) :=
    if used > t.triggerCount then
      let ev1 : List Event := if t.onThreshold then [Event.threshold] else []
      if t.onThresholdWithFetch then
        (unsafeFetch t ltc).bind fun p => some (p.2, ev1 ++ [Event.thresholdWithFetch p.1])
      else some (t, ev1)
    else some (t, [])
  r.bind fun p =>
    let line := ltc.plainRenderLine row
    let lineBytes := line ++ [13, 10]
    (appendHistory fuel p.1 lineBytes).bind fun t2 => some (t2, p.2)

/-- The buffer that `Start` builds: `history: make([]byte, hc.Size)`, all
other history fields zero. -/
def newTerm (size : Nat) (triggerCount : Int) (onThreshold onThresholdWithFetch : Bool) : Term :=
  { history := List.replicate size 0, size := size, head := 0, tail := 0, full := false,
    missed := 0, triggerCount := triggerCount, onThreshold := onThreshold,
    onThresholdWithFetch := onThresholdWithFetch }

/-- The buffer invariant of the data model: the storage has `size` bytes,
`size` is positive, `head` and `tail` are indices into the storage, and
`full` is only set when `head == tail`. -/
structure WF (t : Term) : Prop where
  len : t.history.length = t.size
  pos : 0 < t.size
  head : t.head < t.size
  tail : t.tail < t.size
  full : t.full = true → t.head = t.tail

/-- Closed form of the circular range `[head, tail)`: `usedBytes` bytes read
from `head` in the storage laid out twice. -/
def view (t : Term) : List Nat :=
  ((t.history ++ t.history).drop t.head).take (usedBytes t).toNat

/-- The configuration fields of `t'` are those of `t`. -/
def SameConfig (t t' : Term) : Prop :=
  t'.size = t.size ∧ t'.triggerCount = t.triggerCount ∧ t'.onThreshold = t.onThreshold ∧
    t'.onThresholdWithFetch = t.onThresholdWithFetch

/-- What the scan of `dropOneLine` leaves of a byte sequence: everything
after the first `\n` that directly follows a `\r` (`foundCR` tells whether
the byte before the sequence was a `\r`), or nothing when there is none. -/
def dropLineList : Bool → List Nat → List Nat
  | _, [] => []
  | foundCR, ch :: c => if foundCR && ch == 10 then c else dropLineList (ch == 13) c

/-- Whether a byte sequence contains `\r\n`. -/
def hasCRLF : List Nat → Bool
  | [] => false
  | a :: rest => (a == 13 && rest.head? == some 10) || hasCRLF rest

/-- A byte sequence that ends in `\r\n`. -/
def EndsCRLF (l : List Nat) : Prop := ∃ body, l = body ++ [13, 10]

/-- A line: it ends in `\r\n` and contains no other `\r\n`. -/
def IsLine (l : List Nat) : Prop := ∃ body, l = body ++ [13, 10] ∧ hasCRLF (body ++ [13]) = false

/-- Appending a list of lines in order with `appendHistory`. -/
def appendAll (fuel : Nat) : Term → List (List Nat) → Option Term
  | t, [] => some t
  | t, b :: bs => (appendHistory fuel t b).bind fun t1 => appendAll fuel t1 bs

/-- The states reachable from a freshly constructed buffer of capacity at
least one by `appendHistory` on byte sequences ending in `\r\n`,
`dropOneLine`, `unsafeFetch` and `DropHistory`. -/
inductive Reachable : Term → Prop where
  | start (size : Nat) (triggerCount : Int) (onT onF : Bool) (h : 1 ≤ size) :
      Reachable (newTerm size triggerCount onT onF)
  | append (fuel : Nat) (t : Term) (b : List Nat) (t' : Term) (ht : Reachable t)
      (hb : EndsCRLF b) (h : appendHistory fuel t b = some t') : Reachable t'
  | drop (fuel : Nat) (t t' : Term) (ht : Reachable t)
      (h : dropOneLine fuel t = some t') : Reachable t'
  | fetch (t : Term) (ltc : LockedTerminalContext) (out : FetchResult) (t' : Term)
      (ht : Reachable t) (h : unsafeFetch t ltc = some (out, t')) : Reachable t'
  | dropHistory (t : Term) (ht : Reachable t) : Reachable (DropHistory t)

/-- The states of `Reachable`, each with the bytes accepted since the last
drain: the concatenation, in order, of the byte sequences that
`appendHistory` was called with and copied into the buffer (those of at most
`size` bytes; a longer one is rejected and only counted in `missed`) since
the buffer was constructed or last drained by `unsafeFetch` or
`DropHistory`. -/
inductive ReachableTrace : Term → List Nat → Prop where
  | start (size : Nat) (triggerCount : Int) (onT onF : Bool) (h : 1 ≤ size) :
      ReachableTrace (newTerm size triggerCount onT onF) []
  | append (fuel : Nat) (t : Term) (acc b : List Nat) (t' : Term) (ht : ReachableTrace t acc)
      (hb : EndsCRLF b) (hfit : b.length ≤ t.size) (h : appendHistory fuel t b = some t') :
      ReachableTrace t' (acc ++ b)
  | reject (fuel : Nat) (t : Term) (acc b : List Nat) (t' : Term) (ht : ReachableTrace t acc)
      (hb : EndsCRLF b) (hbig : t.size < b.length) (h : appendHistory fuel t b = some t') :
      ReachableTrace t' acc
  | drop (fuel : Nat) (t : Term) (acc : List Nat) (t' : Term) (ht : ReachableTrace t acc)
      (h : dropOneLine fuel t = some t') : ReachableTrace t' acc
  | fetch (t : Term) (acc : List Nat) (ltc : LockedTerminalContext) (out : FetchResult)
      (t' : Term) (ht : ReachableTrace t acc) (h : unsafeFetch t ltc = some (out, t')) :
      ReachableTrace t' []
  | dropHistory (t : Term) (acc : List Nat) (ht : ReachableTrace t acc) :
      ReachableTrace (DropHistory t) []

/-- A Go `float32` value (IEEE 754 binary32).  Every finite binary32 value is
an integer multiple of `2^-149`: `fin neg mag` is the value `± mag · 2^-149`.
The two zeros are `fin false 0` and `fin true 0`. -/
inductive F32 where
  | nan : F32
  | inf (neg : Bool) : F32
  | fin (neg : Bool) (mag : Nat) : F32
deriving DecidableEq, Repr

/-- The number of binary digits of `n`: `0` for `0`, and `k + 1` when
`2^k ≤ n < 2^(k+1)`. -/
def bitLen (n : Nat) : Nat := if n = 0 then 0 else Nat.log2 n + 1

/-- The integer nearest to `n / 2^s`, ties to the even one. -/
def roundShift (n s : Nat) : Nat :=
  let q := n / 2 ^ s
  let r := n % 2 ^ s
  if 2 * r < 2 ^ s then q
  else if 2 ^ s < 2 * r then q + 1
  else if q % 2 = 0 then q else q + 1

/-- Rounding to `float32`, to nearest with ties to even: the binary32 value
nearest to `± n · 2^-u`, as a multiple of `2^-149`.  The result keeps 24
significant bits (fewer in the subnormal range, below `2^-126`) and overflows
to an infinity from `2^128` on. -/
def roundF32 (neg : Bool) (n u : Nat) : F32 :=
  let s : Int := (max (bitLen n : Int) ((u : Int) - 125)) - 24
  let mag : Nat :=
    if s ≤ 0 then n * 2 ^ (149 - u)
    else roundShift n s.toNat * 2 ^ (s + 149 - (u : Int)).toNat
  if mag < 2 ^ 277 then F32.fin neg mag else F32.inf neg

/-- The Go comparison `x <= 0` on `float32`. -/
def F32.le0 : F32 → Bool
  | F32.nan => false
  | F32.inf neg => neg
  | F32.fin neg mag => neg || mag == 0

/-- The Go comparison `x >= 1` on `float32`. -/
def F32.ge1 : F32 → Bool
  | F32.nan => false
  | F32.inf neg => !neg
  | F32.fin neg mag => !neg && 2 ^ 149 ≤ mag

/-- The Go conversion `float32(n)` of an `int`. -/
def F32.ofInt (n : Int) : F32 := roundF32 (decide (n < 0)) n.natAbs 0

/-- The Go product `x * y` on `float32`. -/
def F32.mul : F32 → F32 → F32
  | F32.nan, _ => F32.nan
  | _, F32.nan => F32.nan
  | F32.inf a, F32.inf b => F32.inf (a != b)
  | F32.inf a, F32.fin b m => if m = 0 then F32.nan else F32.inf (a != b)
  | F32.fin a m, F32.inf b => if m = 0 then F32.nan else F32.inf (a != b)
  | F32.fin a m, F32.fin b k => roundF32 (a != b) (m * k) 298

/-- The Go conversion `int(x)` of a `float32`: the fraction is discarded.
For a NaN, an infinity or a value outside the range of `int` (64 bits) the
result is implementation-specific; it is the parameter `undef`. -/
def F32.toInt (undef : Int) : F32 → Int
  | F32.nan => undef
  | F32.inf _ => undef
  | F32.fin neg mag =>
    if neg then (if mag / 2 ^ 149 ≤ 2 ^ 63 then -((mag / 2 ^ 149 : Nat) : Int) else undef)
    else (if mag / 2 ^ 149 < 2 ^ 63 then ((mag / 2 ^ 149 : Nat) : Int) else undef)

/-- The Go struct `HistoryConfig`.  The two callbacks are recorded by whether
they are non-nil. -/
structure HistoryConfig where
  Size : Int
  Threshold : F32
  OnThreshold : Bool
  OnThresholdWithFetchCallback : Bool
deriving DecidableEq, Repr

/-- The Go variable `defaultHistorySize`. -/
def defaultHistorySize : Int := 4096

/-- The value `float32(defaultHistoryThreshold)`: the `float32` nearest to
`0.6`, which is `10066330 · 2^-24`. -/
def defaultHistoryThreshold : F32 := F32.fin false (10066330 * 2 ^ 125)

/-- The value of an integer result as a Go `int` (64 bits, two's complement):
arithmetic on `int` wraps around modulo `2^64` into `[-2^63, 2^63)`. -/
def wrapInt (x : Int) : Int :=
  (x + 9223372036854775808) % 18446744073709551616 - 9223372036854775808

/-- The Go function `normalizeHistoryConfig`: the configuration as updated
through the pointer, and the returned `triggerCount`.  The sum `hc.Size + 1`
is a Go `int` and wraps around: for `Size = 2^63 - 1` it is `-2^63`. -/
def normalizeHistoryConfig (undef : Int) (hc : HistoryConfig) : HistoryConfig × Int :=
  let hc1 := if hc.Size ≤ 0 then { hc with Size := defaultHistorySize } else hc
  let hc2 := if hc1.Threshold.le0 then { hc1 with Threshold := defaultHistoryThreshold } else hc1
  if hc2.Threshold.ge1 then
    ({ hc2 with OnThreshold := false, OnThresholdWithFetchCallback := false },
      wrapInt (hc2.Size + 1))
  else
    (hc2, F32.toInt undef (F32.mul hc2.Threshold (F32.ofInt hc2.Size)))

/-- The buffer fields of the `Term` that `Start` builds from a history
configuration. -/
def Start (undef : Int) (hc : HistoryConfig) : Term :=
  let r := normalizeHistoryConfig undef hc
  newTerm r.1.Size.toNat r.2 r.1.OnThreshold r.1.OnThresholdWithFetchCallback

/-- The rational value of a finite `float32`; `0` for a NaN or an infinity. -/
def F32.toRat : F32 → ℚ
  | F32.nan => 0
  | F32.inf _ => 0
  | F32.fin neg mag => (if neg then -1 else 1) * ((mag : ℚ) / 2 ^ 149)

/-- The states of a session: those reachable from `t0` by `onScrollback`,
`unsafeFetch` (the body of `Fetch`) and `DropHistory`. -/
inductive SessionReachable (t0 : Term) : Term → Prop where
  | init : SessionReachable t0 t0
  | scroll (fuel : Nat) (t : Term) (row : Int) (ltc : LockedTerminalContext) (t' : Term)
      (evs : List Event) (ht : SessionReachable t0 t)
      (h : onScrollback fuel t row ltc = some (t', evs)) : SessionReachable t0 t'
  | fetch (t : Term) (ltc : LockedTerminalContext) (out : FetchResult) (t' : Term)
      (ht : SessionReachable t0 t) (h : unsafeFetch t ltc = some (out, t')) :
      SessionReachable t0 t'
  | dropHistory (t : Term) (ht : SessionReachable t0 t) : SessionReachable t0 (DropHistory t)

/-- A Go `error` value: `none` is `nil`. -/
abbrev GoError := Option String

/-- The part of `Term` that `Close` uses: whether `t.closer` (a `sync.Once`)
has already run its function, and, as a counter kept for the statement of the
claims, how many times `t.ptmx.Close()` has been executed. -/
structure CloseState where
  closerDone : Bool
  ptyCloses : Nat
deriving DecidableEq, Repr

/-- A session on which `Close` has not been called. -/
def freshCloseState : CloseState := { closerDone := false, ptyCloses := 0 }

/-- The Go method `Close`, called sequentially: `t.closer.Do` runs
`err = t.ptmx.Close()` only if it has not run before, and the named result
`err` is `nil` otherwise.  `ptyResult` is what `t.ptmx.Close()` returns when
it is executed. -/
def Close (s : CloseState) (ptyResult : GoError) : GoError × CloseState :=
  if s.closerDone then (none, s)
  else (ptyResult, { closerDone := true, ptyCloses := s.ptyCloses + 1 })

/-- A sequence of `Close` calls, one for each element of the list, which
gives what `t.ptmx.Close()` would return during that call: the results
returned to the callers, in order, and the final state. -/
def closeCalls (s : CloseState) : List GoError → List GoError × CloseState
  | [] => ([], s)
  | r :: rs => ((Close s r).1 :: (closeCalls (Close s r).2 rs).1, (closeCalls (Close s r).2 rs).2)

/-- The states reachable from a freshly constructed buffer of capacity at
least one by `appendHistory` on arbitrary byte sequences (of any length and
content), `dropOneLine`, `unsafeFetch` and `DropHistory`. -/
inductive ReachableAny : Term → Prop where
  | start (size : Nat) (triggerCount : Int) (onT onF : Bool) (h : 1 ≤ size) :
      ReachableAny (newTerm size triggerCount onT onF)
  | append (fuel : Nat) (t : Term) (b : List Nat) (t' : Term) (ht : ReachableAny t)
      (h : appendHistory fuel t b = some t') : ReachableAny t'
  | drop (fuel : Nat) (t t' : Term) (ht : ReachableAny t)
      (h : dropOneLine fuel t = some t') : ReachableAny t'
  | fetch (t : Term) (ltc : LockedTerminalContext) (out : FetchResult) (t' : Term)
      (ht : ReachableAny t) (h : unsafeFetch t ltc = some (out, t')) : ReachableAny t'
  | dropHistory (t : Term) (ht : ReachableAny t) : ReachableAny (DropHistory t)

/-! ## Concrete inputs -/

/-- A terminal context whose rows all render as `ab`. -/
def exLtc : LockedTerminalContext := { plainRenderLine := fun _ => [97, 98], plainRender := [] }

/-- A drained buffer of capacity 8 with `head = tail = 3` and stale bytes in
the storage. -/
def exDrained : Term :=
  { history := [7, 7, 7, 7, 7, 7, 7, 7], size := 8, head := 3, tail := 3, full := false,
    missed := 0, triggerCount := 4, onThreshold := true, onThresholdWithFetch := true }

/-- The lines `a`, `bc`, `def` and `toolongxx`, each followed by CRLF. -/
def exLines : List (List Nat) :=
  [[97, 13, 10], [98, 99, 13, 10], [100, 101, 102, 13, 10],
   [116, 111, 111, 108, 111, 110, 103, 120, 120, 13, 10]]

/-- The six bytes `a\r\nb\r\n`: the lines `a` and `b`, each followed by CRLF. -/
def exChunk : List Nat := [97, 13, 10, 98, 13, 10]

/-- The line `xy` followed by CRLF. -/
def exLine : List Nat := [120, 121, 13, 10]

/-- A buffer of capacity 8 whose content is `exChunk`. -/
def exInner : Term :=
  { history := [97, 13, 10, 98, 13, 10, 0, 0], size := 8, head := 0, tail := 6, full := false,
    missed := 0, triggerCount := 4, onThreshold := true, onThresholdWithFetch := false }

/-- The buffer `exInner` after `appendHistory(exLine)`. -/
def exInnerAfter : Term :=
  { history := [13, 10, 10, 98, 13, 10, 120, 121], size := 8, head := 3, tail := 2,
    full := false, missed := 1, triggerCount := 4, onThreshold := true,
    onThresholdWithFetch := false }

/-- A buffer of capacity 4 after appending `ab\r\n`, evicting it with
`dropOneLine`, and rejecting the five-byte line `abc\r\n`. -/
def exMid : Term :=
  { history := [97, 98, 13, 10], size := 4, head := 0, tail := 0, full := false,
    missed := 2, triggerCount := 2, onThreshold := false, onThresholdWithFetch := false }

/-- The buffer `exMid` after `DropHistory` and appending `xy\r\n`. -/
def exReached : Term :=
  { history := [120, 121, 13, 10], size := 4, head := 0, tail := 0, full := true,
    missed := 0, triggerCount := 2, onThreshold := false, onThresholdWithFetch := false }

/-- A line of the test scenario: 80 blanks followed by CRLF, 82 bytes. -/
def exLine82 : List Nat := List.replicate 80 32 ++ [13, 10]

/-- The buffer `exInner` after `onScrollback` with a row that renders as `ab`. -/
def exScrolled : Term :=
  { history := [13, 10, 10, 98, 13, 10, 97, 98], size := 8, head := 3, tail := 2,
    full := false, missed := 1, triggerCount := 4, onThreshold := true,
    onThresholdWithFetch := false }

/-- The buffer `exInner` with both callbacks configured and two lines missed. -/
def exBoth : Term :=
  { exInner with missed := 2, onThresholdWithFetch := true }

/-- A freshly constructed, empty buffer of capacity 4. -/
def exEmpty : Term := newTerm 4 2 false false

/-- The buffer `exEmpty` after `appendHistory` of a zero-length byte
sequence. -/
def exEmptyAfter : Term :=
  { history := [0, 0, 0, 0], size := 4, head := 0, tail := 0, full := true,
    missed := 0, triggerCount := 2, onThreshold := false, onThresholdWithFetch := false }

/-- The zero-valued `HistoryConfig{}`. -/
def exZeroConfig : HistoryConfig :=
  { Size := 0, Threshold := F32.fin false 0, OnThreshold := false,
    OnThresholdWithFetchCallback := false }

/-- A configuration with capacity `2^24 + 3` and threshold `0.5`. -/
def exBigConfig : HistoryConfig :=
  { Size := 16777219, Threshold := F32.fin false (2 ^ 148), OnThreshold := true,
    OnThresholdWithFetchCallback := true }

/-- A configuration with the largest `int` as capacity, `2^63 - 1`, and
threshold `1.0`. -/
def exMaxConfig : HistoryConfig :=
  { Size := 9223372036854775807, Threshold := F32.fin false (2 ^ 149), OnThreshold := true,
    OnThresholdWithFetchCallback := true }

/-- A configuration with capacity 8 and threshold `1.0`, both callbacks set. -/
def exOffConfig : HistoryConfig :=
  { Size := 8, Threshold := F32.fin false (2 ^ 149), OnThreshold := true,
    OnThresholdWithFetchCallback := true }

/-! ## The circular range and its closed form -/

theorem usedBytes_range {t : Term} (h : WF t) : 0 ≤ usedBytes t ∧ usedBytes t ≤ t.size := by
  obtain ⟨h1, h2, h3, h4, h5⟩ := h
  unfold usedBytes
  split_ifs <;> omega

theorem linearize_eq_view {t : Term} (h : WF t) : linearize t = some (view t) := by
  have hr := usedBytes_range h
  obtain ⟨h1, h2, h3, h4, h5⟩ := h
  unfold linearize view
  simp only [slice, copyAt]
  by_cases hf : t.full = true
  · have e := h5 hf
    have hu : usedBytes t = t.size := by simp [usedBytes, hf]
    simp [hu, hf, h1, h2, e, h4.le, Nat.not_lt.mpr h4.le]
    apply List.ext_getElem?
    intro i
    simp only [List.getElem?_append, List.getElem?_take, List.getElem?_drop,
      List.getElem?_replicate, List.length_append, List.length_take, List.length_drop,
      List.length_replicate, h1]
    split_ifs <;> first | rfl | omega | (congr 1; omega)
  · by_cases hth : t.tail ≥ t.head
    · have hu : usedBytes t = (t.tail : Int) - t.head := by simp [usedBytes, hf, hth]
      have hn : (usedBytes t).toNat = t.tail - t.head := by omega
      by_cases hp : t.tail = t.head
      · simp [hu, hf, h1, h2, hp]
      · have hlt : (t.head : Int) < t.tail := by omega
        have hlt2 : t.head < t.tail := by omega
        simp [hu, hf, h1, h2, hth, hlt, hlt2, h4.le]
        apply List.ext_getElem?
        intro i
        simp only [List.getElem?_append, List.getElem?_take, List.getElem?_drop,
          List.getElem?_replicate, List.length_append, List.length_take, List.length_drop,
          List.length_replicate, h1]
        split_ifs <;> first | rfl | omega
    · have hu : usedBytes t = (t.size : Int) - ((t.head : Int) - t.tail) := by simp [usedBytes, hf, hth]
      have hn : (usedBytes t).toNat = t.size - (t.head - t.tail) := by omega
      have hlt : t.tail < t.head := by omega
      have hpos : (0:Int) < usedBytes t := by omega 
      simp [hpos, hn, hf, h1, h2, hth, hlt, h4.le, h3.le]
      refine ⟨hr.1, ?_⟩
      have m1 : min (t.size - (t.head - t.tail)) (t.size - t.head) = t.size - t.head := by omega
      have m2 : t.size - (t.head - t.tail) - (t.size - t.head) = t.tail := by omega
      simp only [m1, m2, Nat.min_self, List.take_take]
      apply List.ext_getElem?
      intro i
      simp only [List.getElem?_append, List.getElem?_take, List.getElem?_drop,
        List.getElem?_replicate, List.length_append, List.length_take, List.length_drop,
        List.length_replicate, h1]
      split_ifs <;> first | rfl | omega | (congr 1; omega)



theorem view_length {t : Term} (h : WF t) : ((view t).length : Int) = usedBytes t := by
  have hr := usedBytes_range h
  obtain ⟨h1, h2, h3, h4, h5⟩ := h
  simp only [view, List.length_take, List.length_drop, List.length_append, h1]
  omega

theorem step_view {t : Term} (h : WF t) (hu : 0 < usedBytes t) :
    ∃ ch, t.history[t.head]? = some ch ∧
      view t = ch :: view { t with head := (t.head + 1) % t.size, full := false } ∧
      WF { t with head := (t.head + 1) % t.size, full := false } ∧
      usedBytes { t with head := (t.head + 1) % t.size, full := false } = usedBytes t - 1 := by
  have hr := usedBytes_range h
  obtain ⟨h1, h2, h3, h4, h5⟩ := h
  have hlt : t.head < t.history.length := by omega
  refine ⟨t.history[t.head], by simp [hlt], ?_⟩
  have hm : (t.head + 1) % t.size = if t.head + 1 = t.size then 0 else t.head + 1 := by
    split_ifs with e
    · rw [e]; exact Nat.mod_self _
    · exact Nat.mod_eq_of_lt (by omega)
  have hused : usedBytes { t with head := (t.head + 1) % t.size, full := false } = usedBytes t - 1 := by
    rw [hm]
    clear hr hm
    by_cases hf : t.full = true
    · have e := h5 hf
      by_cases e1 : t.head + 1 = t.size
      · simp [usedBytes, hf, e1]; omega
      · have : ¬ (t.head + 1 ≤ t.tail) := by omega
        simp [usedBytes, hf, e1, this]; omega
    · by_cases hth : t.head ≤ t.tail
      · have hu2 : usedBytes t = (t.tail : Int) - t.head := by simp [usedBytes, hf, hth]
        rw [hu2] at hu ⊢
        have e1 : ¬ (t.head + 1 = t.size) := by omega
        have : t.head + 1 ≤ t.tail := by omega
        simp [usedBytes, e1, this]; omega
      · have hu2 : usedBytes t = (t.size : Int) - ((t.head : Int) - t.tail) := by
          simp [usedBytes, hf, hth]
        rw [hu2]
        by_cases e1 : t.head + 1 = t.size
        · simp [usedBytes, e1]; omega
        · have : ¬ (t.head + 1 ≤ t.tail) := by omega
          simp [usedBytes, e1, this]; omega
  refine ⟨?_, ⟨h1, h2, Nat.mod_lt _ h2, h4, by simp⟩, hused⟩
  simp only [view, hused]
  simp only [hm]
  apply List.ext_getElem?
  intro i
  have hn : (usedBytes t - 1).toNat = (usedBytes t).toNat - 1 := by omega
  have hp : 0 < (usedBytes t).toNat := by omega
  have hle : (usedBytes t).toNat ≤ t.size := by omega
  generalize (usedBytes t).toNat = u at hn hp hle
  rw [hn]
  rcases i with _ | i
  · simp [List.getElem?_take, List.getElem?_drop, List.getElem?_append, hp, hlt]
  · simp only [List.getElem?_cons_succ, List.getElem?_append, List.getElem?_take,
      List.getElem?_drop, h1]
    split_ifs <;> first | rfl | omega | (congr 1; omega)



theorem writeWrap_hist {t : Term} (h : WF t) (b : List Nat) (hb : b.length ≤ t.size) :
    ∃ hist : List Nat,
      writeWrap t b = some
        (if (t.tail + b.length) % t.size = t.head then
          { t with history := hist, tail := (t.tail + b.length) % t.size, full := true }
        else { t with history := hist, tail := (t.tail + b.length) % t.size }) ∧
      hist.length = t.size ∧
      ∀ j, hist[j]? =
        if j < t.size then
          (if t.tail ≤ j ∧ j < t.tail + b.length then b[j - t.tail]?
           else if j + t.size < t.tail + b.length then b[j + t.size - t.tail]?
           else t.history[j]?)
        else none := by
  obtain ⟨h1, h2, h3, h4, h5⟩ := h
  have h2' : t.size ≠ 0 := by omega
  by_cases hw : t.tail + b.length ≤ t.size
  · have m1 : min (t.size - t.tail) b.length = b.length := by omega
    refine ⟨t.history.take t.tail ++ b ++ t.history.drop (t.tail + b.length), ?_, ?_, ?_⟩
    · simp [writeWrap, copyAt, slice, h1, h4.le, m1, h2']
    · simp [h1]; omega
    · intro j
      simp only [List.getElem?_append, List.getElem?_take, List.getElem?_drop,
        List.length_append, List.length_take, List.length_drop, h1]
      split_ifs <;> first | rfl | omega | (congr 1; omega) | (rw [List.getElem?_eq_none (by omega)])
  · have m1 : min (t.size - t.tail) b.length = t.size - t.tail := by omega
    have m2 : t.size - t.tail < b.length := by omega
    refine ⟨b.drop (t.size - t.tail) ++
      (t.history.take t.tail ++ b.take (t.size - t.tail)).drop (b.length - (t.size - t.tail)), ?_, ?_, ?_⟩
    · have hc : t.size ≤ b.length + t.tail := by omega
      have m3 : min t.size (b.length - (t.size - t.tail)) = b.length - (t.size - t.tail) := by omega
      have e1 : List.drop t.size t.history = [] := List.drop_eq_nil_of_le (by omega)
      have e2 : List.take (b.length - (t.size - t.tail)) (List.drop (t.size - t.tail) b)
          = List.drop (t.size - t.tail) b := List.take_of_length_le (by simp)
      simp [writeWrap, copyAt, slice, h1, h4.le, m1, m2, h2', hc, m3, e1, e2]
    · simp [h1]; omega
    · intro j
      simp only [List.getElem?_append, List.getElem?_take, List.getElem?_drop,
        List.length_append, List.length_take, List.length_drop, h1]
      split_ifs <;> first | rfl | omega | (congr 1; omega)



theorem usedBytes_tail_rel {t : Term} (h : WF t) :
    ((t.head : Int) + usedBytes t = t.tail ∧ (t.full = false)) ∨
    ((t.head : Int) + usedBytes t = t.tail + t.size ∧ (t.full = true ∨ t.tail < t.head)) := by
  obtain ⟨h1, h2, h3, h4, h5⟩ := h
  by_cases hf : t.full = true
  · have e := h5 hf
    right; simp [usedBytes, hf]; omega
  · by_cases hth : t.head ≤ t.tail
    · left; simp [usedBytes, hf, hth]
    · right; simp [usedBytes, hf, hth]; omega

theorem writeWrap_spec {t : Term} (h : WF t) (b : List Nat) (hb : 0 < b.length)
    (hfit : (b.length : Int) + usedBytes t ≤ t.size) :
    ∃ t', writeWrap t b = some t' ∧ WF t' ∧ view t' = view t ++ b ∧
      t'.missed = t.missed ∧ SameConfig t t' := by
  have hr := usedBytes_range h
  have hrel := usedBytes_tail_rel h
  obtain ⟨hist, hw, hlen, hchar⟩ := writeWrap_hist h b (by omega)
  obtain ⟨h1, h2, h3, h4, h5⟩ := h
  have hnf : t.full = false := by
    by_cases hf : t.full = true
    · exfalso
      have : usedBytes t = t.size := by simp [usedBytes, hf]
      omega
    · simpa using hf
  have hm : (t.tail + b.length) % t.size =
      if t.tail + b.length < t.size then t.tail + b.length else t.tail + b.length - t.size := by
    split_ifs with e
    · exact Nat.mod_eq_of_lt e
    · rw [Nat.mod_eq_sub_mod (by omega)]
      exact Nat.mod_eq_of_lt (by omega)
  rw [hm] at hw
  generalize hq : (if t.tail + b.length < t.size then t.tail + b.length
    else t.tail + b.length - t.size) = tl at hw
  have htl : tl < t.size ∧ (tl = t.tail + b.length ∨ tl + t.size = t.tail + b.length) := by
    rw [← hq]; split_ifs <;> omega
  clear hq hm
  obtain ⟨un, hun⟩ : ∃ un : Nat, usedBytes t = un := ⟨(usedBytes t).toNat, by omega⟩
  have hview : ∀ f : Bool, ∀ u' : Int, u' = usedBytes t + b.length →
      List.take u'.toNat (List.drop t.head (hist ++ hist)) = view t ++ b := by
    intro f u' hu'
    have e1 : u'.toNat = un + b.length := by omega
    simp only [view, hun, e1, Int.toNat_ofNat]
    rw [hun] at hrel hfit hr
    apply List.ext_getElem?
    intro i
    simp only [List.getElem?_append, List.getElem?_take, List.getElem?_drop, List.length_append,
      List.length_take, List.length_drop, hlen, h1, hchar]
    split_ifs <;> first | rfl | omega | (congr 1; omega) | (rw [List.getElem?_eq_none (by omega)])
  by_cases e : tl = t.head
  · rw [if_pos e] at hw
    refine ⟨_, hw, ⟨hlen, h2, h3, htl.1, fun _ => e.symm⟩, ?_, rfl, rfl, rfl, rfl, rfl⟩
    exact hview true _ (by rw [hun]; simp [usedBytes]; omega)
  · rw [if_neg e] at hw
    refine ⟨_, hw, ⟨hlen, h2, h3, htl.1, fun hf => by simp [hnf] at hf⟩, ?_, rfl, rfl, rfl, rfl, rfl⟩
    refine hview false _ ?_
    by_cases hth : t.head ≤ tl
    · rw [hun]; simp [usedBytes, hnf, hth]; omega
    · rw [hun]; simp [usedBytes, hnf, hth]; omega

/-! ## The loops -/

theorem dropLineList_length_le (f : Bool) (c : List Nat) :
    (dropLineList f c).length ≤ c.length := by
  induction c generalizing f with
  | nil => simp [dropLineList]
  | cons ch c ih =>
    simp only [dropLineList]
    split_ifs
    · simp
    · have := ih (ch == 13); simp; omega

theorem dropLineList_length_lt (f : Bool) (c : List Nat) (hc : c ≠ []) :
    (dropLineList f c).length < c.length := by
  cases c with
  | nil => exact absurd rfl hc
  | cons ch c =>
    simp only [dropLineList]
    split_ifs
    · simp
    · have := dropLineList_length_le (ch == 13) c; simp; omega

theorem view_eq_nil {t : Term} (h : WF t) (hu : ¬ usedBytes t > 0) : view t = [] := by
  have := view_length h
  have hr := usedBytes_range h
  apply List.eq_nil_of_length_eq_zero
  omega

theorem dropLoop_spec (fuel : Nat) : ∀ (t : Term) (f : Bool), WF t → (view t).length < fuel →
    ∃ t', dropLoop fuel t f = some t' ∧ WF t' ∧ view t' = dropLineList f (view t) ∧
      t'.missed = t.missed ∧ SameConfig t t' := by
  induction fuel with
  | zero => intro t f _ h; omega
  | succ fuel ih =>
    intro t f hwf hfuel
    by_cases hu : usedBytes t > 0
    · obtain ⟨ch, hch, hv, hwf', hu'⟩ := step_view hwf hu
      have ht2 : (if t.full = true then
          ({ t with head := (t.head + 1) % t.size, full := false } : Term)
          else { t with head := (t.head + 1) % t.size }) =
          { t with head := (t.head + 1) % t.size, full := false } := by
        split_ifs with hf
        · rfl
        · have : t.full = false := by simpa using hf
          simp [this]
      have hs : t.size ≠ 0 := by have := hwf.pos; omega
      simp only [dropLoop, hu, if_true, hch, hs, if_false, ht2]
      rw [hv]
      simp only [dropLineList]
      by_cases hbrk : (f && ch == 10) = true
      · simp only [hbrk, if_true]
        exact ⟨_, rfl, hwf', rfl, rfl, rfl, rfl, rfl, rfl⟩
      · simp only [hbrk, if_false]
        have hlen : (view { t with head := (t.head + 1) % t.size, full := false }).length < fuel := by
          rw [hv] at hfuel; simp at hfuel; omega
        obtain ⟨t', h1, h2, h3, h4, h5⟩ := ih _ (ch == 13) hwf' hlen
        exact ⟨t', h1, h2, h3, h4, h5⟩
    · simp only [dropLoop, hu, if_false]
      rw [view_eq_nil hwf hu]
      exact ⟨t, rfl, hwf, by rw [view_eq_nil hwf hu]; rfl, rfl, rfl, rfl, rfl, rfl⟩

theorem dropOneLine_spec (fuel : Nat) (t : Term) (hwf : WF t) (hfuel : (view t).length < fuel) :
    ∃ t', dropOneLine fuel t = some t' ∧ WF t' ∧ view t' = dropLineList false (view t) ∧
      t'.missed = (if view t = [] then t.missed else t.missed + 1) ∧ SameConfig t t' := by
  have hl := view_length hwf
  by_cases hu : usedBytes t = 0
  · have hnil : view t = [] := view_eq_nil hwf (by omega)
    simp only [dropOneLine, hu, if_true, hnil, dropLineList]
    exact ⟨t, rfl, hwf, hnil, rfl, rfl, rfl, rfl, rfl⟩
  · have hne : view t ≠ [] := by
      intro e; rw [e] at hl; simp at hl; omega
    obtain ⟨t', h1, h2, h3, h4, h5⟩ := dropLoop_spec fuel t false hwf hfuel
    simp only [dropOneLine, hu, if_false, h1, Option.some_bind, hne]
    exact ⟨_, rfl, ⟨h2.len, h2.pos, h2.head, h2.tail, h2.full⟩, h3, by simp [h4], h5⟩

theorem ensureSpace_spec (lf need : Nat) (fuel : Nat) : ∀ (t : Term), WF t → need ≤ t.size →
    (view t).length < fuel → (view t).length < lf →
    ∃ k t', ensureSpace lf fuel t need = some t' ∧ WF t' ∧
      view t' = (dropLineList false)^[k] (view t) ∧ t'.missed = t.missed + k ∧
      need + (view t').length ≤ t.size ∧
      (∀ j, j < k → t.size < need + ((dropLineList false)^[j] (view t)).length) ∧
      SameConfig t t' := by
  induction fuel with
  | zero => intro t _ _ h; omega
  | succ fuel ih =>
    intro t hwf hneed hfuel hlf
    have hl := view_length hwf
    by_cases hc : (t.size : Int) - usedBytes t < (need : Int)
    · have hne : view t ≠ [] := by
        intro e; rw [e] at hl; simp at hl; omega
      obtain ⟨t1, h1, h2, h3, h4, h5⟩ := dropOneLine_spec lf t hwf hlf
      have hlt := dropLineList_length_lt false (view t) hne
      rw [← h3] at hlt
      obtain ⟨k, t', g1, g2, g3, g4, g5, g6, g7⟩ := ih t1 h2 (by rw [h5.1]; exact hneed)
        (by omega) (by omega)
      refine ⟨k + 1, t', ?_, g2, ?_, ?_, ?_, ?_, ?_⟩
      · simp only [ensureSpace, hc, if_true, h1, Option.some_bind, g1]
      · rw [g3, h3]; rfl
      · rw [g4, h4, if_neg hne]; omega
      · rw [← h5.1]; exact g5
      · intro j hj
        rcases j with _ | j
        · simp only [Function.iterate_zero, id]; omega
        · have := g6 j (by omega)
          rw [h3, h5.1] at this
          exact this
      · exact ⟨g7.1.trans h5.1, g7.2.1.trans h5.2.1, g7.2.2.1.trans h5.2.2.1, g7.2.2.2.trans h5.2.2.2⟩
    · refine ⟨0, t, ?_, hwf, rfl, rfl, ?_, ?_, rfl, rfl, rfl, rfl⟩
      · simp only [ensureSpace, hc, if_false]
      · omega
      · intro j hj; omega

theorem appendHistory_spec (fuel : Nat) (t : Term) (b : List Nat) (hwf : WF t)
    (hb : 0 < b.length) (hfit : b.length ≤ t.size) (hfuel : t.size < fuel) :
    ∃ k t', appendHistory fuel t b = some t' ∧ WF t' ∧
      view t' = (dropLineList false)^[k] (view t) ++ b ∧ t'.missed = t.missed + k ∧
      b.length + ((dropLineList false)^[k] (view t)).length ≤ t.size ∧
      (∀ j, j < k → t.size < b.length + ((dropLineList false)^[j] (view t)).length) ∧
      SameConfig t t' := by
  have hl := view_length hwf
  have hr := usedBytes_range hwf
  have hs : t.size ≠ 0 := by have := hwf.pos; omega
  obtain ⟨k, t1, g1, g2, g3, g4, g5, g6, g7⟩ :=
    ensureSpace_spec fuel b.length fuel t hwf hfit (by omega) (by omega)
  have hl1 := view_length g2
  obtain ⟨t', w1, w2, w3, w4, w5⟩ := writeWrap_spec g2 b hb (by rw [g7.1]; omega)
  refine ⟨k, t', ?_, w2, ?_, ?_, ?_, g6, ?_⟩
  · simp only [appendHistory, hs, if_false, gt_iff_lt, Nat.not_lt.mpr hfit, g1, Option.some_bind, w1]
  · rw [w3, g3]
  · rw [w4, g4]
  · rw [← g3]; exact g5
  · exact ⟨w5.1.trans g7.1, w5.2.1.trans g7.2.1, w5.2.2.1.trans g7.2.2.1, w5.2.2.2.trans g7.2.2.2⟩

/-! ## Fuel monotonicity -/

theorem dropLoop_mono (fuel : Nat) : ∀ (t : Term) (f : Bool) (t' : Term),
    dropLoop fuel t f = some t' → ∀ fuel', fuel ≤ fuel' → dropLoop fuel' t f = some t' := by
  induction fuel with
  | zero => intro t f t' h; simp [dropLoop] at h
  | succ fuel ih =>
    intro t f t' h fuel' hle
    obtain ⟨n, rfl⟩ : ∃ n, fuel' = n + 1 := ⟨fuel' - 1, by omega⟩
    simp only [dropLoop] at h ⊢
    by_cases hu : usedBytes t > 0
    · simp only [hu, if_true] at h ⊢
      cases hg : t.history[t.head]? with
      | none => simp [hg] at h
      | some ch =>
        simp only [hg] at h ⊢
        by_cases hs : t.size = 0
        · simp [hs] at h
        · simp only [hs, if_false] at h ⊢
          by_cases hb : (f && ch == 10) = true
          · simp only [hb, if_true] at h ⊢
            exact h
          · simp only [hb, if_false] at h ⊢
            exact ih _ _ _ h n (by omega)
    · simp only [hu, if_false] at h ⊢
      exact h

theorem dropOneLine_mono (fuel : Nat) (t t' : Term) (h : dropOneLine fuel t = some t')
    (fuel' : Nat) (hle : fuel ≤ fuel') : dropOneLine fuel' t = some t' := by
  simp only [dropOneLine] at h ⊢
  split_ifs at h ⊢ with hu
  · exact h
  · cases hd : dropLoop fuel t false with
    | none => simp [hd] at h
    | some t1 =>
      rw [hd] at h
      rw [dropLoop_mono fuel t false t1 hd fuel' hle]
      exact h

theorem ensureSpace_mono (lf lf' need : Nat) (hlf : lf ≤ lf') (fuel : Nat) : ∀ (t t' : Term),
    ensureSpace lf fuel t need = some t' → ∀ fuel', fuel ≤ fuel' →
      ensureSpace lf' fuel' t need = some t' := by
  induction fuel with
  | zero => intro t t' h; simp [ensureSpace] at h
  | succ fuel ih =>
    intro t t' h fuel' hle
    obtain ⟨n, rfl⟩ : ∃ n, fuel' = n + 1 := ⟨fuel' - 1, by omega⟩
    simp only [ensureSpace] at h ⊢
    split_ifs at h ⊢ with hc
    · cases hd : dropOneLine lf t with
      | none => simp [hd] at h
      | some t1 =>
        rw [hd] at h
        rw [dropOneLine_mono lf t t1 hd lf' hlf]
        exact ih _ _ h n (by omega)
    · exact h

theorem appendHistory_mono (fuel : Nat) (t : Term) (b : List Nat) (t' : Term)
    (h : appendHistory fuel t b = some t') (fuel' : Nat) (hle : fuel ≤ fuel') :
    appendHistory fuel' t b = some t' := by
  simp only [appendHistory] at h ⊢
  split_ifs at h ⊢ with hs hb
  · exact h
  · exact h
  · cases hd : ensureSpace fuel fuel t b.length with
    | none => simp [hd] at h
    | some t1 =>
      rw [hd] at h
      rw [ensureSpace_mono fuel fuel' b.length hle fuel t t1 hd fuel' hle]
      exact h

/-! ## Lines -/

theorem isLine_endsCRLF {l : List Nat} (h : IsLine l) : EndsCRLF l := by
  obtain ⟨body, e, _⟩ := h
  exact ⟨body, e⟩

theorem endsCRLF_two_le {l : List Nat} (h : EndsCRLF l) : 2 ≤ l.length := by
  obtain ⟨body, rfl⟩ := h
  simp

theorem isLine_two_le {l : List Nat} (h : IsLine l) : 2 ≤ l.length :=
  endsCRLF_two_le (isLine_endsCRLF h)

theorem dropLineList_line_aux (rest : List Nat) : ∀ (body : List Nat) (f : Bool),
    ¬ (f = true ∧ (body ++ [13]).head? = some 10) → hasCRLF (body ++ [13]) = false →
    dropLineList f (body ++ [13, 10] ++ rest) = rest := by
  intro body
  induction body with
  | nil =>
    intro f _ _
    simp [dropLineList]
  | cons x body ih =>
    intro f h1 h2
    simp only [List.cons_append, hasCRLF, Bool.or_eq_false_iff, Bool.and_eq_false_imp,
      beq_iff_eq, List.head?_cons, Option.some.injEq] at h1 h2
    have hb : ¬ ((f && x == 10) = true) := by
      simpa using h1
    simp only [List.cons_append, dropLineList, hb, if_false]
    apply ih
    · rintro ⟨hx, hh⟩
      have hx' : x = 13 := by simpa using hx
      have := h2.1 hx'
      simp [hh] at this
    · exact h2.2

theorem dropLineList_line {l : List Nat} (h : IsLine l) (rest : List Nat) :
    dropLineList false (l ++ rest) = rest := by
  obtain ⟨body, rfl, hc⟩ := h
  exact dropLineList_line_aux rest body false (by simp) hc

theorem iterate_dropLine_flatten : ∀ (cs : List (List Nat)), (∀ l ∈ cs, IsLine l) →
    ∀ j, j ≤ cs.length → (dropLineList false)^[j] cs.flatten = (cs.drop j).flatten := by
  intro cs
  induction cs with
  | nil => intro _ j hj; simp at hj; subst hj; rfl
  | cons c cs ih =>
    intro hall j hj
    rcases j with _ | j
    · rfl
    · rw [Function.iterate_succ_apply, List.flatten_cons,
        dropLineList_line (hall c (List.mem_cons_self _ _))]
      exact ih (fun l hl => hall l (List.mem_cons_of_mem _ hl)) j (by simpa using hj)

theorem iterate_dropLine_nil (j : Nat) : (dropLineList false)^[j] [] = [] := by
  induction j with
  | zero => rfl
  | succ j ih => rw [Function.iterate_succ_apply]; exact ih

theorem dropLineList_framed : ∀ (c : List Nat) (f : Bool),
    (c = [] ∨ EndsCRLF c ∨ (f = true ∧ c = [10])) →
    (dropLineList f c = [] ∨ EndsCRLF (dropLineList f c)) := by
  intro c
  induction c with
  | nil => intro f _; left; rfl
  | cons ch c ih =>
    intro f h
    simp only [dropLineList]
    have hc : c = [] ∨ EndsCRLF c ∨ ((ch == 13) = true ∧ c = [10]) := by
      rcases h with h | ⟨body, hb⟩ | ⟨_, h⟩
      · exact absurd h (by simp)
      · rcases body with _ | ⟨x, body⟩
        · simp at hb
          right; right
          simp [hb.1, hb.2]
        · simp at hb
          right; left
          exact ⟨body, hb.2⟩
      · left; simp at h; exact h.2
    split_ifs with hb
    · rcases hc with hc | hc | ⟨h13, _⟩
      · left; exact hc
      · right; exact hc
      · simp at hb h13
        omega
    · exact ih _ hc

theorem iterate_dropLine_framed (k : Nat) : ∀ (c : List Nat), (c = [] ∨ EndsCRLF c) →
    ((dropLineList false)^[k] c = [] ∨ EndsCRLF ((dropLineList false)^[k] c)) := by
  induction k with
  | zero => intro c h; exact h
  | succ k ih =>
    intro c h
    rw [Function.iterate_succ_apply]
    apply ih
    rcases h with h | h
    · exact dropLineList_framed c false (Or.inl h)
    · exact dropLineList_framed c false (Or.inr (Or.inl h))

/-! ## Appending lines -/

theorem view_missed (t : Term) (m : Nat) : view { t with missed := m } = view t := rfl

theorem linearize_of_view {t : Term} (h : WF t) (c : List Nat) :
    linearize t = some c ↔ view t = c := by
  rw [linearize_eq_view h]
  simp

theorem appendHistory_lines (fuel : Nat) (t : Term) (cs : List (List Nat)) (b : List Nat)
    (hwf : WF t) (hv : view t = cs.flatten) (hcs : ∀ l ∈ cs, IsLine l)
    (hb : 0 < b.length) (hfit : b.length ≤ t.size) (hfuel : t.size < fuel) :
    ∃ k t', k ≤ cs.length ∧ appendHistory fuel t b = some t' ∧ WF t' ∧
      view t' = (cs.drop k ++ [b]).flatten ∧ t'.missed = t.missed + k ∧
      (cs.drop k).flatten.length + b.length ≤ t.size ∧
      (∀ j, j < k → t.size < (cs.drop j).flatten.length + b.length) ∧ SameConfig t t' := by
  obtain ⟨k, t', h1, h2, h3, h4, h5, h6, h7⟩ := appendHistory_spec fuel t b hwf hb hfit hfuel
  rw [hv] at h3 h5 h6
  have hk : k ≤ cs.length := by
    by_contra hlt
    have := h6 cs.length (by omega)
    rw [iterate_dropLine_flatten cs hcs _ (le_refl _)] at this
    simp at this
    omega
  rw [iterate_dropLine_flatten cs hcs k hk] at h3 h5
  refine ⟨k, t', hk, h1, h2, ?_, h4, by omega, ?_, h7⟩
  · rw [h3]; simp
  · intro j hj
    have := h6 j hj
    rw [iterate_dropLine_flatten cs hcs j (by omega)] at this
    omega

theorem appendAll_fitting (fuel : Nat) : ∀ (lines : List (List Nat)) (t : Term), WF t →
    (∀ l ∈ lines, 0 < l.length) → (view t).length + lines.flatten.length ≤ t.size →
    t.size < fuel →
    ∃ t1, appendAll fuel t lines = some t1 ∧ WF t1 ∧ view t1 = view t ++ lines.flatten ∧
      t1.missed = t.missed ∧ SameConfig t t1 := by
  intro lines
  induction lines with
  | nil =>
    intro t hwf _ _ _
    exact ⟨t, rfl, hwf, by simp, rfl, rfl, rfl, rfl, rfl⟩
  | cons b bs ih =>
    intro t hwf hpos htot hfuel
    simp only [List.flatten_cons, List.length_append] at htot
    obtain ⟨k, t', h1, h2, h3, h4, h5, h6, h7⟩ :=
      appendHistory_spec fuel t b hwf (hpos b (List.mem_cons_self _ _)) (by omega) hfuel
    have hk : k = 0 := by
      by_contra hne
      have := h6 0 (by omega)
      simp only [Function.iterate_zero, id] at this
      omega
    subst hk
    simp only [Function.iterate_zero, id] at h3
    obtain ⟨t1, g1, g2, g3, g4, g5⟩ := ih t' h2
      (fun l hl => hpos l (List.mem_cons_of_mem _ hl))
      (by rw [h3, h7.1]; simp only [List.length_append]; omega) (by rw [h7.1]; exact hfuel)
    refine ⟨t1, ?_, g2, ?_, ?_, ?_⟩
    · simp only [appendAll, h1, Option.some_bind, g1]
    · rw [g3, h3]; simp
    · rw [g4, h4]; rfl
    · exact ⟨g5.1.trans h7.1, g5.2.1.trans h7.2.1, g5.2.2.1.trans h7.2.2.1,
        g5.2.2.2.trans h7.2.2.2⟩

theorem appendAll_conserve (fuel : Nat) : ∀ (lines : List (List Nat)) (t : Term)
    (kept : List (List Nat)), WF t → view t = kept.flatten → (∀ l ∈ kept, IsLine l) →
    (∀ l ∈ lines, IsLine l) → t.size < fuel →
    ∃ (t1 : Term) (kept' : List (List Nat)), appendAll fuel t lines = some t1 ∧ WF t1 ∧
      view t1 = kept'.flatten ∧
      (∀ l ∈ kept', IsLine l) ∧
      kept'.length + t1.missed = kept.length + t.missed + lines.length ∧
      kept'.Sublist (kept ++ lines) ∧ SameConfig t t1 := by
  intro lines
  induction lines with
  | nil =>
    intro t kept hwf hv hk _ _
    exact ⟨t, kept, rfl, hwf, hv, hk, by simp, by simp, rfl, rfl, rfl, rfl⟩
  | cons b bs ih =>
    intro t kept hwf hv hk hl hfuel
    have hbl := hl b (List.mem_cons_self _ _)
    have hbs : ∀ l ∈ bs, IsLine l := fun l h => hl l (List.mem_cons_of_mem _ h)
    have hs : t.size ≠ 0 := by have := hwf.pos; omega
    by_cases hbig : b.length > t.size
    · have hstep : appendHistory fuel t b = some { t with missed := t.missed + 1 } := by
        simp only [appendHistory, hs, if_false, hbig, if_true]
      obtain ⟨t1, kept', g1, g2, g3, g4, g5, g6, g7⟩ := ih { t with missed := t.missed + 1 } kept
        ⟨hwf.len, hwf.pos, hwf.head, hwf.tail, hwf.full⟩ hv hk hbs hfuel
      refine ⟨t1, kept', ?_, g2, g3, g4, ?_, ?_, g7⟩
      · simp only [appendAll, hstep, Option.some_bind, g1]
      · simp only [List.length_cons] at g5 ⊢; omega
      · exact g6.trans (List.Sublist.append (List.Sublist.refl _) (List.sublist_cons_self _ _))
    · have hb2 := isLine_two_le hbl
      obtain ⟨k, t', hk1, h1, h2, h3, h4, h5, h6, h7⟩ :=
        appendHistory_lines fuel t kept b hwf hv hk (by omega) (by omega) hfuel
      have hk' : ∀ l ∈ kept.drop k ++ [b], IsLine l := by
        intro l hl'
        rcases List.mem_append.mp hl' with h | h
        · exact hk l (List.mem_of_mem_drop h)
        · simp at h; rw [h]; exact hbl
      obtain ⟨t1, kept', g1, g2, g3, g4, g5, g6, g7⟩ := ih t' (kept.drop k ++ [b]) h2 h3 hk' hbs
        (by rw [h7.1]; exact hfuel)
      refine ⟨t1, kept', ?_, g2, g3, g4, ?_, ?_, ?_⟩
      · simp only [appendAll, h1, Option.some_bind, g1]
      · simp only [List.length_cons, List.length_append, List.length_drop, List.length_nil] at g5 ⊢
        omega
      · refine g6.trans ?_
        rw [List.append_assoc]
        exact List.Sublist.append (List.drop_sublist _ _) (List.Sublist.refl _)
      · exact ⟨g7.1.trans h7.1, g7.2.1.trans h7.2.1, g7.2.2.1.trans h7.2.2.1,
          g7.2.2.2.trans h7.2.2.2⟩

theorem drop_snoc_flatten_length (done : List (List Nat)) (b : List Nat) (j : Nat)
    (hj : j ≤ done.length) :
    ((done ++ [b]).drop j).flatten.length = (done.drop j).flatten.length + b.length := by
  rw [List.drop_append_of_le_length hj]
  simp

theorem appendAll_suffix (fuel : Nat) : ∀ (lines : List (List Nat)) (done : List (List Nat))
    (t : Term) (k : Nat), WF t → k ≤ done.length → view t = (done.drop k).flatten →
    (∀ l ∈ done, IsLine l) → (∀ l ∈ lines, IsLine l ∧ l.length ≤ t.size) →
    (∀ j, j < k → t.size < (done.drop j).flatten.length) → t.size < fuel →
    ∃ (t1 : Term) (k' : Nat), appendAll fuel t lines = some t1 ∧ WF t1 ∧
      k' ≤ (done ++ lines).length ∧ view t1 = ((done ++ lines).drop k').flatten ∧
      ((done ++ lines).drop k').flatten.length ≤ t.size ∧
      (∀ j, j < k' → t.size < ((done ++ lines).drop j).flatten.length) ∧
      t1.missed + k = t.missed + k' ∧ SameConfig t t1 := by
  intro lines
  induction lines with
  | nil =>
    intro done t k hwf hk hv _ _ hmin _
    have hl := view_length hwf
    have hr := usedBytes_range hwf
    refine ⟨t, k, rfl, hwf, by simpa using hk, by simpa using hv, ?_, by simpa using hmin, rfl,
      rfl, rfl, rfl, rfl⟩
    simp only [List.append_nil]
    rw [← hv]; omega
  | cons b bs ih =>
    intro done t k hwf hk hv hdone hl hmin hfuel
    obtain ⟨hbl, hbfit⟩ := hl b (List.mem_cons_self _ _)
    have hb2 := isLine_two_le hbl
    have hdk : ∀ l ∈ done.drop k, IsLine l := fun l h => hdone l (List.mem_of_mem_drop h)
    obtain ⟨k1, t', hk1, h1, h2, h3, h4, h5, h6, h7⟩ :=
      appendHistory_lines fuel t (done.drop k) b hwf hv hdk (by omega) hbfit hfuel
    simp only [List.length_drop] at hk1
    have hdd : ∀ j, (done.drop k).drop j = done.drop (k + j) := fun j => List.drop_drop j k done
    have hv' : view t' = ((done ++ [b]).drop (k + k1)).flatten := by
      rw [h3, hdd, List.drop_append_of_le_length (by omega)]
    have hdone' : ∀ l ∈ done ++ [b], IsLine l := by
      intro l hl'
      rcases List.mem_append.mp hl' with h | h
      · exact hdone l h
      · simp at h; rw [h]; exact hbl
    have hmin' : ∀ j, j < k + k1 → t'.size < ((done ++ [b]).drop j).flatten.length := by
      intro j hj
      rw [h7.1, drop_snoc_flatten_length done b j (by omega)]
      by_cases hjk : j < k
      · have := hmin j hjk; omega
      · have := h6 (j - k) (by omega)
        rw [hdd] at this
        have e : k + (j - k) = j := by omega
        rw [e] at this
        exact this
    obtain ⟨t1, k', g1, g2, g3, g4, g5, g6, g7, g8⟩ := ih (done ++ [b]) t' (k + k1) h2
      (by simp; omega) hv' hdone'
      (fun l h => by rw [h7.1]; exact hl l (List.mem_cons_of_mem _ h)) hmin'
      (by rw [h7.1]; exact hfuel)
    have e : done ++ [b] ++ bs = done ++ b :: bs := by simp
    rw [e] at g3 g4 g5 g6
    rw [h7.1] at g5 g6
    refine ⟨t1, k', ?_, g2, g3, g4, g5, g6, by omega, ?_⟩
    · simp only [appendAll, h1, Option.some_bind, g1]
    · exact ⟨g8.1.trans h7.1, g8.2.1.trans h7.2.1, g8.2.2.1.trans h7.2.2.1,
        g8.2.2.2.trans h7.2.2.2⟩

/-! ## Reachable states -/

theorem WF_newTerm (size : Nat) (tc : Int) (a b : Bool) (h : 1 ≤ size) :
    WF (newTerm size tc a b) :=
  ⟨by simp [newTerm], by simp [newTerm]; omega, by simp [newTerm]; omega,
    by simp [newTerm]; omega, by simp [newTerm]⟩

theorem WF_DropHistory {t : Term} (h : WF t) : WF (DropHistory t) :=
  ⟨h.len, h.pos, h.tail, h.tail, fun _ => rfl⟩

theorem usedBytes_DropHistory (t : Term) : usedBytes (DropHistory t) = 0 := by
  simp [usedBytes, DropHistory]

theorem view_DropHistory (t : Term) : view (DropHistory t) = [] := by
  simp [view, usedBytes_DropHistory]

theorem unsafeFetch_state {t : Term} {ltc : LockedTerminalContext} {out : FetchResult}
    {t' : Term} (h : unsafeFetch t ltc = some (out, t')) :
    t' = DropHistory t ∧ out.Missed = t.missed ∧ out.Screen = ltc.plainRender ∧
      linearize t = some out.History := by
  unfold unsafeFetch at h
  cases hl : linearize t with
  | none => simp [hl] at h
  | some c =>
    simp only [hl, Option.some_bind, Option.some.injEq, Prod.mk.injEq] at h
    obtain ⟨h1, h2⟩ := h
    subst h1 h2
    exact ⟨rfl, rfl, rfl, rfl⟩

theorem unsafeFetch_of_WF {t : Term} (h : WF t) (ltc : LockedTerminalContext) :
    unsafeFetch t ltc =
      some ({ Screen := ltc.plainRender, History := view t, Missed := t.missed },
        DropHistory t) := by
  simp only [unsafeFetch, linearize_eq_view h, Option.some_bind]
  rfl

theorem reachable_inv {t : Term} (h : Reachable t) :
    WF t ∧ (view t = [] ∨ EndsCRLF (view t)) := by
  induction h with
  | start size tc a b h =>
    refine ⟨WF_newTerm size tc a b h, Or.inl ?_⟩
    simp [view, usedBytes, newTerm]
  | append fuel t b t' _ hb h ih =>
    obtain ⟨hwf, hfr⟩ := ih
    have hs : t.size ≠ 0 := by have := hwf.pos; omega
    by_cases hbig : b.length > t.size
    · have hstep : appendHistory fuel t b = some { t with missed := t.missed + 1 } := by
        simp only [appendHistory, hs, if_false, hbig, if_true]
      rw [hstep] at h
      simp only [Option.some.injEq] at h
      subst h
      exact ⟨⟨hwf.len, hwf.pos, hwf.head, hwf.tail, hwf.full⟩, hfr⟩
    · have hb2 := endsCRLF_two_le hb
      obtain ⟨k, t2, h1, h2, h3, _⟩ :=
        appendHistory_spec (max fuel (t.size + 1)) t b hwf (by omega) (by omega) (by omega)
      have := appendHistory_mono fuel t b t' h (max fuel (t.size + 1)) (by omega)
      rw [this] at h1
      simp only [Option.some.injEq] at h1
      subst h1
      refine ⟨h2, Or.inr ?_⟩
      rw [h3]
      obtain ⟨body, rfl⟩ := hb
      exact ⟨(dropLineList false)^[k] (view t) ++ body, by simp⟩
  | drop fuel t t' _ h ih =>
    obtain ⟨hwf, hfr⟩ := ih
    obtain ⟨t2, h1, h2, h3, _⟩ :=
      dropOneLine_spec (max fuel ((view t).length + 1)) t hwf (by omega)
    have := dropOneLine_mono fuel t t' h (max fuel ((view t).length + 1)) (by omega)
    rw [this] at h1
    simp only [Option.some.injEq] at h1
    subst h1
    refine ⟨h2, ?_⟩
    rw [h3]
    rcases hfr with hfr | hfr
    · exact dropLineList_framed _ false (Or.inl hfr)
    · exact dropLineList_framed _ false (Or.inr (Or.inl hfr))
  | fetch t ltc out t' _ h ih =>
    obtain ⟨hwf, _⟩ := ih
    obtain ⟨e, _⟩ := unsafeFetch_state h
    subst e
    exact ⟨WF_DropHistory hwf, Or.inl (view_DropHistory t)⟩
  | dropHistory t _ ih =>
    exact ⟨WF_DropHistory ih.1, Or.inl (view_DropHistory t)⟩

/-! ## The claims -/

theorem view_of_drained {t : Term} (h : t.head = t.tail ∧ t.full = false) : view t = [] := by
  have : usedBytes t = 0 := by simp [usedBytes, h.1, h.2]
  simp [view, this]

theorem isLine_of_body (body : List Nat) (h : hasCRLF (body ++ [13]) = false) :
    IsLine (body ++ [13, 10]) := ⟨body, rfl, h⟩

/-- C1: conservation law.  For every capacity of at least one byte and every
finite sequence of lines, each ending in CRLF and containing no other CRLF
(of any length, also longer than the capacity), appending them in order to a
drained buffer and then draining it with `unsafeFetch` succeeds and yields a
history that is the concatenation of `h` of these lines, still in order, and
a missed count `m`, with `h + m` the number of lines appended. -/
theorem conservation_law (fuel : Nat) (t : Term) (lines : List (List Nat))
    (ltc : LockedTerminalContext) (hwf : WF t)
    (hdrained : t.head = t.tail ∧ t.full = false ∧ t.missed = 0)
    (hlines : ∀ l ∈ lines, IsLine l) (hfuel : t.size < fuel) :
    ∃ (t1 : Term) (out : FetchResult) (t2 : Term) (kept : List (List Nat)),
      appendAll fuel t lines = some t1 ∧ unsafeFetch t1 ltc = some (out, t2) ∧
      out.History = kept.flatten ∧ (∀ l ∈ kept, IsLine l) ∧ kept.Sublist lines ∧
      kept.length + out.Missed = lines.length := by
  obtain ⟨t1, kept, h1, h2, h3, h4, h5, h6, _⟩ := appendAll_conserve fuel lines t [] hwf
    (by rw [view_of_drained ⟨hdrained.1, hdrained.2.1⟩]; rfl) (by simp) hlines hfuel
  refine ⟨t1, _, _, kept, h1, unsafeFetch_of_WF h2 ltc, h3, h4, by simpa using h6, ?_⟩
  simp only [List.length_nil, hdrained.2.2] at h5
  simp only
  omega

/-- C1 at a concrete input: capacity 8, head = tail = 3, and the four lines
`a`, `bc`, `def`, `toolongxx`, the last one longer than the capacity. -/
theorem conservation_law_witness :
    ∃ (t1 : Term) (out : FetchResult) (t2 : Term) (kept : List (List Nat)),
      appendAll 9 exDrained exLines = some t1 ∧ unsafeFetch t1 exLtc = some (out, t2) ∧
      out.History = kept.flatten ∧ (∀ l ∈ kept, IsLine l) ∧ kept.Sublist exLines ∧
      kept.length + out.Missed = exLines.length :=
  conservation_law 9 exDrained exLines exLtc
    ⟨by decide, by decide, by decide, by decide, by decide⟩ ⟨rfl, rfl, rfl⟩
    (by
      intro l hl
      simp only [exLines, List.mem_cons, List.mem_singleton, List.not_mem_nil, or_false] at hl
      rcases hl with rfl | rfl | rfl | rfl
      · exact isLine_of_body [97] rfl
      · exact isLine_of_body [98, 99] rfl
      · exact isLine_of_body [100, 101, 102] rfl
      · exact isLine_of_body [116, 111, 111, 108, 111, 110, 103, 120, 120] rfl)
    (by decide)

/-- C2: appending never drops the appended line itself.  For every buffer
state satisfying the invariant whose linearized content is a sequence of
CRLF-terminated lines `c1..cm` (a line ends at its first CRLF: `IsLine`), and
every byte sequence `b` ending in CRLF with `2 ≤ len(b) ≤ capacity`,
`appendHistory(b)` succeeds, and for some `k ≤ m` the linearized content
afterwards (what `unsafeFetch` returns as history) is `c(k+1)..cm` followed
by `b`, with `missed` increased by exactly `k`. -/
theorem append_keeps_line (fuel : Nat) (t : Term) (cs : List (List Nat)) (b : List Nat)
    (ltc : LockedTerminalContext) (hwf : WF t) (hc : linearize t = some cs.flatten)
    (hcs : ∀ c ∈ cs, IsLine c) (hb : EndsCRLF b) (hfit : b.length ≤ t.size)
    (hfuel : t.size < fuel) :
    ∃ (k : Nat) (t' : Term), k ≤ cs.length ∧ appendHistory fuel t b = some t' ∧ WF t' ∧
      linearize t' = some ((cs.drop k).flatten ++ b) ∧ t'.missed = t.missed + k ∧
      ∃ (out : FetchResult) (t'' : Term), unsafeFetch t' ltc = some (out, t'') ∧
        out.History = (cs.drop k).flatten ++ b := by
  have hb2 := endsCRLF_two_le hb
  obtain ⟨k, t', h1, h2, h3, h4, h5, _⟩ := appendHistory_lines fuel t cs b hwf
    ((linearize_of_view hwf _).mp hc) hcs (by omega) hfit hfuel
  have hv : view t' = (cs.drop k).flatten ++ b := by rw [h4]; simp
  exact ⟨k, t', h1, h2, h3, (linearize_of_view h3 _).mpr hv, h5, _, _,
    unsafeFetch_of_WF h3 ltc, hv⟩

/-- C2 at a concrete input: capacity 8, content `a\r\n` `b\r\n`,
appended line `xy\r\n`. -/
theorem append_keeps_line_witness :
    ∃ (k : Nat) (t' : Term), k ≤ [[97, 13, 10], [98, 13, 10]].length ∧
      appendHistory 9 exInner exLine = some t' ∧ WF t' ∧
      linearize t' = some (([[97, 13, 10], [98, 13, 10]].drop k).flatten ++ exLine) ∧
      t'.missed = exInner.missed + k ∧
      ∃ (out : FetchResult) (t'' : Term), unsafeFetch t' exLtc = some (out, t'') ∧
        out.History = ([[97, 13, 10], [98, 13, 10]].drop k).flatten ++ exLine :=
  append_keeps_line 9 exInner [[97, 13, 10], [98, 13, 10]] exLine exLtc
    ⟨by decide, by decide, by decide, by decide, by decide⟩ (by decide)
    (by
      intro c hc
      simp only [List.mem_cons, List.mem_singleton, List.not_mem_nil, or_false] at hc
      rcases hc with rfl | rfl
      · exact isLine_of_body [97] rfl
      · exact isLine_of_body [98] rfl)
    ⟨[120, 121], rfl⟩ (by decide) (by decide)

/-- C3: oversized rejection.  For every buffer state with capacity at least
one and every byte sequence longer than the capacity, `appendHistory`
returns at once (whatever the iteration budget) with `missed` incremented by
exactly one and storage, `head`, `tail` and `full` unchanged, so that the
occupancy and the linearized content are unchanged. -/
theorem oversized_rejected (fuel : Nat) (t : Term) (b : List Nat) (hcap : 1 ≤ t.size)
    (hb : t.size < b.length) :
    ∃ t', appendHistory fuel t b = some t' ∧ t' = { t with missed := t.missed + 1 } ∧
      t'.missed = t.missed + 1 ∧ t'.history = t.history ∧ t'.head = t.head ∧
      t'.tail = t.tail ∧ t'.full = t.full ∧ t'.size = t.size ∧
      usedBytes t' = usedBytes t ∧ linearize t' = linearize t := by
  have hs : t.size ≠ 0 := by omega
  refine ⟨_, ?_, rfl, rfl, rfl, rfl, rfl, rfl, rfl, rfl, rfl⟩
  simp only [appendHistory, hs, if_false, gt_iff_lt, hb, if_true]

/-- C3 at a concrete input: capacity 8 and the 11-byte line `toolongxx\r\n`,
with no iteration budget at all. -/
theorem oversized_rejected_witness :
    1 ≤ exInner.size ∧ exInner.size < [116, 111, 111, 108, 111, 110, 103, 120, 120, 13, 10].length ∧
    ∃ t', appendHistory 0 exInner [116, 111, 111, 108, 111, 110, 103, 120, 120, 13, 10] = some t' ∧
      t' = { exInner with missed := exInner.missed + 1 } ∧
      t'.missed = exInner.missed + 1 ∧ t'.history = exInner.history ∧ t'.head = exInner.head ∧
      t'.tail = exInner.tail ∧ t'.full = exInner.full ∧ t'.size = exInner.size ∧
      usedBytes t' = usedBytes exInner ∧ linearize t' = linearize exInner :=
  ⟨by decide, by decide, oversized_rejected 0 exInner _ (by decide) (by decide)⟩

/-- C4: drain postcondition.  For every buffer state, after `DropHistory` and
after every `unsafeFetch` that returns, `usedBytes() == 0`, `full == false`,
`head == tail` and `missed == 0`, and a further `unsafeFetch` with no append
in between returns an empty history and a missed count of zero; on every
state satisfying the buffer invariant `unsafeFetch` does return. -/
theorem drain_postcondition (t : Term) (ltc ltc2 : LockedTerminalContext) :
    (usedBytes (DropHistory t) = 0 ∧ (DropHistory t).full = false ∧
      (DropHistory t).head = (DropHistory t).tail ∧ (DropHistory t).missed = 0 ∧
      unsafeFetch (DropHistory t) ltc2 =
        some ({ Screen := ltc2.plainRender, History := [], Missed := 0 }, DropHistory t)) ∧
    (∀ (out : FetchResult) (t' : Term), unsafeFetch t ltc = some (out, t') →
      usedBytes t' = 0 ∧ t'.full = false ∧ t'.head = t'.tail ∧ t'.missed = 0 ∧
      unsafeFetch t' ltc2 =
        some ({ Screen := ltc2.plainRender, History := [], Missed := 0 }, t')) ∧
    (WF t → ∃ (out : FetchResult) (t' : Term), unsafeFetch t ltc = some (out, t')) := by
  have hd : unsafeFetch (DropHistory t) ltc2 =
      some ({ Screen := ltc2.plainRender, History := [], Missed := 0 }, DropHistory t) := by
    simp [unsafeFetch, linearize, usedBytes_DropHistory]
    simp [DropHistory]
  refine ⟨⟨usedBytes_DropHistory t, rfl, rfl, rfl, hd⟩, ?_, ?_⟩
  · intro out t' h
    obtain ⟨e, _⟩ := unsafeFetch_state h
    subst e
    exact ⟨usedBytes_DropHistory t, rfl, rfl, rfl, hd⟩
  · intro hwf
    exact ⟨_, _, unsafeFetch_of_WF hwf ltc⟩

/-- C4 at a concrete input: the buffer of capacity 8 holding six bytes is
drained by `unsafeFetch`, and the postcondition holds for the state it
returns. -/
theorem drain_postcondition_witness :
    unsafeFetch exInner exLtc =
        some ({ Screen := [], History := exChunk, Missed := 0 }, DropHistory exInner) ∧
      usedBytes (DropHistory exInner) = 0 ∧ (DropHistory exInner).full = false ∧
      (DropHistory exInner).head = (DropHistory exInner).tail ∧
      (DropHistory exInner).missed = 0 ∧
      unsafeFetch (DropHistory exInner) exLtc =
        some ({ Screen := exLtc.plainRender, History := [], Missed := 0 },
          DropHistory exInner) :=
  ⟨by rfl, (drain_postcondition exInner exLtc exLtc).2.1 _ _ (by rfl)⟩

/-- C5: append/drain round trip in chronological order across wrap-around.
For every capacity of at least one, every drained buffer with `head = tail`
at any index, and every list of byte sequences ending in CRLF whose total
length is at most the capacity (the full case included), appending them in
order succeeds without changing `missed`, and `unsafeFetch` then returns the
concatenation of the lines in the order appended, of length `usedBytes()`
before the drain, with the missed count of before the drain. -/
theorem append_fetch_round_trip (fuel : Nat) (t : Term) (lines : List (List Nat))
    (ltc : LockedTerminalContext) (hwf : WF t) (hdrained : t.head = t.tail ∧ t.full = false)
    (hlines : ∀ l ∈ lines, EndsCRLF l) (htotal : lines.flatten.length ≤ t.size)
    (hfuel : t.size < fuel) :
    ∃ (t1 : Term) (out : FetchResult) (t2 : Term),
      appendAll fuel t lines = some t1 ∧ unsafeFetch t1 ltc = some (out, t2) ∧
      out.History = lines.flatten ∧ (out.History.length : Int) = usedBytes t1 ∧
      out.Missed = t1.missed ∧ t1.missed = t.missed := by
  have hv := view_of_drained hdrained
  obtain ⟨t1, h1, h2, h3, h4, _⟩ := appendAll_fitting fuel lines t hwf
    (fun l hl => by have := endsCRLF_two_le (hlines l hl); omega)
    (by rw [hv]; simpa using htotal) hfuel
  rw [hv, List.nil_append] at h3
  refine ⟨t1, _, _, h1, unsafeFetch_of_WF h2 ltc, h3, ?_, rfl, h4⟩
  exact view_length h2

/-- C5 at a concrete input: capacity 8, `head = tail = 3`, and the lines
`a\r\n` and `def\r\n`, eight bytes in all, so that the write wraps and the
buffer becomes full. -/
theorem append_fetch_round_trip_witness :
    [[97, 13, 10], [100, 101, 102, 13, 10]].flatten.length ≤ exDrained.size ∧
    ∃ (t1 : Term) (out : FetchResult) (t2 : Term),
      appendAll 9 exDrained [[97, 13, 10], [100, 101, 102, 13, 10]] = some t1 ∧
      unsafeFetch t1 exLtc = some (out, t2) ∧
      out.History = [[97, 13, 10], [100, 101, 102, 13, 10]].flatten ∧
      (out.History.length : Int) = usedBytes t1 ∧
      out.Missed = t1.missed ∧ t1.missed = exDrained.missed :=
  ⟨by decide, append_fetch_round_trip 9 exDrained [[97, 13, 10], [100, 101, 102, 13, 10]] exLtc
    ⟨by decide, by decide, by decide, by decide, by decide⟩ ⟨rfl, rfl⟩
    (by
      intro l hl
      simp only [List.mem_cons, List.mem_singleton, List.not_mem_nil, or_false] at hl
      rcases hl with rfl | rfl
      · exact ⟨[97], rfl⟩
      · exact ⟨[100, 101, 102], rfl⟩)
    (by decide) (by decide)⟩

theorem first_crlf : ∀ (x : List Nat), hasCRLF x = true →
    ∃ p s, x = p ++ 13 :: 10 :: s ∧ hasCRLF (p ++ [13]) = false := by
  intro x
  induction x with
  | nil => intro h; simp [hasCRLF] at h
  | cons a rest ih =>
    intro h
    by_cases h0 : (a == 13 && rest.head? == some 10) = true
    · simp only [Bool.and_eq_true, beq_iff_eq] at h0
      obtain ⟨ha, hr⟩ := h0
      subst ha
      cases rest with
      | nil => simp at hr
      | cons r rest =>
        simp only [List.head?_cons, Option.some.injEq] at hr
        subst hr
        exact ⟨[], rest, rfl, by decide⟩
    · have hrest : hasCRLF rest = true := by
        simp only [hasCRLF, Bool.or_eq_true] at h
        rcases h with h | h
        · exact absurd h h0
        · exact h
      obtain ⟨p, s, hp, hq⟩ := ih hrest
      have h0' : (a == 13 && rest.head? == some 10) = false := by simpa using h0
      rw [hp] at h0'
      have hhead : (a == 13 && (p ++ [13]).head? == some 10) = false := by
        cases p with
        | nil => simp
        | cons q p => simpa using h0'
      refine ⟨a :: p, s, by rw [hp]; rfl, ?_⟩
      rw [List.cons_append, hasCRLF, hhead, hq]
      rfl

theorem exists_lines_aux (n : Nat) : ∀ (c : List Nat), c.length ≤ n → (c = [] ∨ EndsCRLF c) →
    ∃ ls : List (List Nat), (∀ l ∈ ls, IsLine l) ∧ ls.flatten = c := by
  induction n with
  | zero =>
    intro c hn _
    have : c = [] := List.eq_nil_of_length_eq_zero (by omega)
    exact ⟨[], by simp, by simp [this]⟩
  | succ n ih =>
    intro c hn hc
    rcases hc with rfl | ⟨body, rfl⟩
    · exact ⟨[], by simp, rfl⟩
    · by_cases hh : hasCRLF (body ++ [13]) = true
      · obtain ⟨p, s, hp, hq⟩ := first_crlf _ hh
        rcases List.eq_nil_or_concat s with rfl | ⟨s', x, rfl⟩
        · exfalso
          have := congrArg List.getLast? hp
          simp at this
        · have e : body ++ [13] = (p ++ 13 :: 10 :: s') ++ [x] := by rw [hp]; simp
          have e1 := List.append_inj' e rfl
          obtain ⟨hb, hx⟩ := e1
          simp only [List.cons.injEq, and_true] at hx
          subst hx hb
          obtain ⟨ls, h1, h2⟩ := ih (s' ++ [13, 10]) (by simp at hn ⊢; omega)
            (Or.inr ⟨s', rfl⟩)
          refine ⟨(p ++ [13, 10]) :: ls, ?_, by simp [h2]⟩
          intro l hl
          rcases List.mem_cons.mp hl with rfl | hl
          · exact ⟨p, rfl, hq⟩
          · exact h1 l hl
      · exact ⟨[body ++ [13, 10]], by
          intro l hl
          simp only [List.mem_singleton] at hl
          subst hl
          exact ⟨body, rfl, by simpa using hh⟩, by simp⟩

theorem exists_lines (c : List Nat) (h : c = [] ∨ EndsCRLF c) :
    ∃ ls : List (List Nat), (∀ l ∈ ls, IsLine l) ∧ ls.flatten = c :=
  exists_lines_aux c.length c (le_refl _) h

/-- C6: occupancy invariant.  In every state reachable from a freshly
constructed buffer of capacity at least one by `appendHistory` (on byte
sequences ending in CRLF, of any length), `dropOneLine`, `unsafeFetch` and
`DropHistory`, `head` and `tail` lie in `[0, capacity)`, `full` implies
`head == tail`, `usedBytes()` lies in `[0, capacity]`, and the linearized
content is a sequence of retained lines (each ending in CRLF, with no other
CRLF) whose total byte length is `usedBytes()`. -/
theorem occupancy_invariant (t : Term) (h : Reachable t) :
    t.head < t.size ∧ t.tail < t.size ∧ (t.full = true → t.head = t.tail) ∧
      0 ≤ usedBytes t ∧ usedBytes t ≤ t.size ∧
      ∃ retained : List (List Nat), (∀ l ∈ retained, IsLine l) ∧
        linearize t = some retained.flatten ∧
        usedBytes t = ((retained.map List.length).sum : Nat) := by
  obtain ⟨hwf, hfr⟩ := reachable_inv h
  obtain ⟨ls, h1, h2⟩ := exists_lines (view t) hfr
  have hr := usedBytes_range hwf
  refine ⟨hwf.head, hwf.tail, hwf.full, hr.1, hr.2, ls, h1, ?_, ?_⟩
  · rw [h2]; exact linearize_eq_view hwf
  · rw [← List.length_flatten, h2]
    exact (view_length hwf).symm

/-- C6 at a concrete input: a buffer of capacity 4 after `ab\r\n`, a
`dropOneLine`, an oversized line, `xy\r\n` and a fetch in between. -/
theorem occupancy_invariant_witness :
    exReached.head < exReached.size ∧ exReached.tail < exReached.size ∧
      (exReached.full = true → exReached.head = exReached.tail) ∧
      0 ≤ usedBytes exReached ∧ usedBytes exReached ≤ exReached.size ∧
      ∃ retained : List (List Nat), (∀ l ∈ retained, IsLine l) ∧
        linearize exReached = some retained.flatten ∧
        usedBytes exReached = ((retained.map List.length).sum : Nat) :=
  occupancy_invariant exReached
    (Reachable.append 5 (DropHistory exMid) [120, 121, 13, 10] exReached
      (Reachable.dropHistory exMid
        (Reachable.append 5 _ [97, 98, 99, 13, 10] exMid
          (Reachable.drop 5 _ _
            (Reachable.append 5 (newTerm 4 2 false false) [97, 98, 13, 10] _
              (Reachable.start 4 2 false false (by decide)) ⟨[97, 98], rfl⟩ (by rfl))
            (by rfl))
          ⟨[97, 98, 99], rfl⟩ (by rfl)))
      ⟨[120, 121], rfl⟩ (by rfl))

/-- C7: minimal eviction.  First part: for every buffer satisfying the
invariant whose content is a sequence of lines `cs` (each ending in CRLF, no
other CRLF inside) and every byte sequence `b` ending in CRLF with
`len(b) ≤ capacity`, `appendHistory(b)` succeeds and evicts exactly `k` old
lines, where `k` is the least number such that the remaining old lines plus
`b` fit in the capacity; `k = 0` whenever `capacity - usedBytes() ≥ len(b)`.
Second part: after appending a sequence of fitting lines to an empty buffer,
the retained lines are the longest suffix of the sequence whose total length
is at most the capacity. -/
theorem minimal_eviction :
    (∀ (fuel : Nat) (t : Term) (cs : List (List Nat)) (b : List Nat), WF t →
      linearize t = some cs.flatten → (∀ c ∈ cs, IsLine c) → EndsCRLF b →
      b.length ≤ t.size → t.size < fuel →
      ∃ (k : Nat) (t' : Term), k ≤ cs.length ∧ appendHistory fuel t b = some t' ∧
        linearize t' = some ((cs.drop k).flatten ++ b) ∧ t'.missed = t.missed + k ∧
        (cs.drop k).flatten.length + b.length ≤ t.size ∧
        (∀ j, j < k → t.size < (cs.drop j).flatten.length + b.length) ∧
        ((b.length : Int) ≤ (t.size : Int) - usedBytes t → k = 0)) ∧
    (∀ (fuel : Nat) (t : Term) (lines : List (List Nat)), WF t →
      t.head = t.tail ∧ t.full = false → (∀ l ∈ lines, IsLine l ∧ l.length ≤ t.size) →
      t.size < fuel →
      ∃ (k : Nat) (t1 : Term), k ≤ lines.length ∧ appendAll fuel t lines = some t1 ∧
        linearize t1 = some (lines.drop k).flatten ∧ t1.missed = t.missed + k ∧
        (lines.drop k).flatten.length ≤ t.size ∧
        (∀ j, j < k → t.size < (lines.drop j).flatten.length)) := by
  constructor
  · intro fuel t cs b hwf hc hcs hb hfit hfuel
    have hb2 := endsCRLF_two_le hb
    have hv := (linearize_of_view hwf _).mp hc
    obtain ⟨k, t', h1, h2, h3, h4, h5, h6, h7, _⟩ :=
      appendHistory_lines fuel t cs b hwf hv hcs (by omega) hfit hfuel
    refine ⟨k, t', h1, h2, ?_, h5, h6, h7, ?_⟩
    · rw [linearize_of_view h3, h4]; simp
    · intro hroom
      by_contra hk
      have := h7 0 (by omega)
      have hl := view_length hwf
      rw [hv] at hl
      simp only [List.drop_zero] at this
      omega
  · intro fuel t lines hwf hdr hlines hfuel
    obtain ⟨t1, k, h1, h2, h3, h4, h5, h6, h7, _⟩ := appendAll_suffix fuel lines [] t 0 hwf
      (by simp) (by rw [view_of_drained hdr]; rfl) (by simp) hlines (by simp) hfuel
    simp only [List.nil_append] at h3 h4 h5 h6
    exact ⟨k, t1, h3, h1, (linearize_of_view h2 _).mpr h4, by omega, h5, h6⟩

/-- C7 at a concrete input: capacity 8 holding `a\r\n` and `b\r\n`; the line
`xy\r\n` needs four bytes and two are free. -/
theorem minimal_eviction_witness :
    ∃ (k : Nat) (t' : Term), k ≤ [[97, 13, 10], [98, 13, 10]].length ∧
      appendHistory 9 exInner exLine = some t' ∧
      linearize t' = some (([[97, 13, 10], [98, 13, 10]].drop k).flatten ++ exLine) ∧
      t'.missed = exInner.missed + k ∧
      ([[97, 13, 10], [98, 13, 10]].drop k).flatten.length + exLine.length ≤ exInner.size ∧
      (∀ j, j < k →
        exInner.size < ([[97, 13, 10], [98, 13, 10]].drop j).flatten.length + exLine.length) ∧
      ((exLine.length : Int) ≤ (exInner.size : Int) - usedBytes exInner → k = 0) :=
  minimal_eviction.1 9 exInner [[97, 13, 10], [98, 13, 10]] exLine
    ⟨by decide, by decide, by decide, by decide, by decide⟩ (by decide)
    (by
      intro c hc
      simp only [List.mem_cons, List.mem_singleton, List.not_mem_nil, or_false] at hc
      rcases hc with rfl | rfl
      · exact isLine_of_body [97] rfl
      · exact isLine_of_body [98] rfl)
    ⟨[120, 121], rfl⟩ (by decide) (by decide)

theorem uniform_flatten_length (L : Nat) : ∀ (ls : List (List Nat)),
    (∀ l ∈ ls, l.length = L) → ls.flatten.length = ls.length * L := by
  intro ls
  induction ls with
  | nil => intro _; simp
  | cons a ls ih =>
    intro h
    rw [List.flatten_cons, List.length_append, ih (fun l hl => h l (List.mem_cons_of_mem _ hl)),
      h a (List.mem_cons_self _ _), List.length_cons]
    ring

/-- C8: uniform-width scenario.  For every capacity of at least one, every
line length `L` with `2 ≤ L ≤ capacity` and every number `n` of lines of
length `L` (each ending in CRLF, no other CRLF inside), after appending them
to a drained buffer `unsafeFetch` returns exactly the last
`r = min(n, capacity / L)` appended lines in order, and `Missed = n - r`. -/
theorem uniform_width (fuel : Nat) (t : Term) (lines : List (List Nat)) (L : Nat)
    (ltc : LockedTerminalContext) (hwf : WF t)
    (hdrained : t.head = t.tail ∧ t.full = false ∧ t.missed = 0) (hL : 2 ≤ L)
    (hLcap : L ≤ t.size) (hlines : ∀ l ∈ lines, IsLine l ∧ l.length = L)
    (hfuel : t.size < fuel) :
    ∃ (t1 : Term) (out : FetchResult) (t2 : Term),
      appendAll fuel t lines = some t1 ∧ unsafeFetch t1 ltc = some (out, t2) ∧
      out.History = (lines.drop (lines.length - min lines.length (t.size / L))).flatten ∧
      out.Missed = lines.length - min lines.length (t.size / L) := by
  obtain ⟨t1, k, h1, h2, h3, h4, h5, h6, h7, _⟩ := appendAll_suffix fuel lines [] t 0 hwf
    (by simp) (by rw [view_of_drained ⟨hdrained.1, hdrained.2.1⟩]; rfl) (by simp)
    (fun l hl => ⟨(hlines l hl).1, by rw [(hlines l hl).2]; exact hLcap⟩) (by simp) hfuel
  simp only [List.nil_append] at h3 h4 h5 h6
  have hlen : ∀ j, (lines.drop j).flatten.length = (lines.length - j) * L := by
    intro j
    rw [uniform_flatten_length L _ (fun l hl => (hlines l (List.mem_of_mem_drop hl)).2),
      List.length_drop]
  have hLpos : 0 < L := by omega
  have hk : k = lines.length - min lines.length (t.size / L) := by
    rw [hlen] at h5
    have hle : lines.length - k ≤ t.size / L := (Nat.le_div_iff_mul_le hLpos).mpr h5
    rcases Nat.eq_zero_or_pos k with h0 | hpos
    · subst h0
      have : min lines.length (t.size / L) = lines.length := by
        apply Nat.min_eq_left; omega
      omega
    · have := h6 (k - 1) (by omega)
      rw [hlen] at this
      have hlt : t.size / L < lines.length - (k - 1) := (Nat.div_lt_iff_lt_mul hLpos).mpr this
      have : min lines.length (t.size / L) = t.size / L := by
        apply Nat.min_eq_right; omega
      omega
  refine ⟨t1, _, _, h1, unsafeFetch_of_WF h2 ltc, ?_, ?_⟩
  · simp only
    rw [h4, hk]
  · simp only
    rw [← hk]
    have := hdrained.2.2
    omega

/-- C8 at the input of the test: capacity 4096 and 10216 lines of 82 bytes
(80 blanks and CRLF); `4096 / 82 = 49` lines are retained, the last 49
appended, and 10167 are missed. -/
theorem uniform_width_witness :
    min (List.replicate 10216 exLine82).length ((newTerm 4096 2457 false false).size / 82) = 49 ∧
    ∃ (t1 : Term) (out : FetchResult) (t2 : Term),
      appendAll 4097 (newTerm 4096 2457 false false) (List.replicate 10216 exLine82) = some t1 ∧
      unsafeFetch t1 exLtc = some (out, t2) ∧
      out.History = ((List.replicate 10216 exLine82).drop
        ((List.replicate 10216 exLine82).length -
          min (List.replicate 10216 exLine82).length
            ((newTerm 4096 2457 false false).size / 82))).flatten ∧
      out.Missed = (List.replicate 10216 exLine82).length -
        min (List.replicate 10216 exLine82).length
          ((newTerm 4096 2457 false false).size / 82) :=
  ⟨by
      show min (List.replicate 10216 exLine82).length (4096 / 82) = 49
      rw [List.length_replicate]
      decide,
    uniform_width 4097 (newTerm 4096 2457 false false) (List.replicate 10216 exLine82) 82 exLtc
      (WF_newTerm 4096 2457 false false (by decide)) ⟨rfl, rfl, rfl⟩ (by decide)
      (by show 82 ≤ 4096; decide)
      (by
        intro l hl
        rw [List.eq_of_mem_replicate hl]
        exact ⟨isLine_of_body (List.replicate 80 32) (by decide), by decide⟩)
      (by show 4096 < 4097; decide)⟩

theorem appendHistory_total (fuel : Nat) (t : Term) (b : List Nat) (hwf : WF t)
    (hb : 0 < b.length) (hfuel : t.size < fuel) :
    ∃ t', appendHistory fuel t b = some t' ∧ WF t' := by
  by_cases hbig : b.length > t.size
  · have hs : t.size ≠ 0 := by have := hwf.pos; omega
    exact ⟨{ t with missed := t.missed + 1 },
      by simp only [appendHistory, hs, if_false, hbig, if_true],
      ⟨hwf.len, hwf.pos, hwf.head, hwf.tail, hwf.full⟩⟩
  · obtain ⟨k, t', h1, h2, _⟩ := appendHistory_spec fuel t b hwf hb (by omega) hfuel
    exact ⟨t', h1, h2⟩

theorem appendHistory_fits (fuel : Nat) (t : Term) (b : List Nat) (hwf : WF t)
    (hb : 0 < b.length) (hroom : (view t).length + b.length ≤ t.size) (hfuel : t.size < fuel) :
    ∃ t', appendHistory fuel t b = some t' ∧ WF t' ∧ view t' = view t ++ b ∧
      t'.missed = t.missed := by
  obtain ⟨k, t', h1, h2, h3, h4, _, h6, _⟩ :=
    appendHistory_spec fuel t b hwf hb (by omega) hfuel
  have hk : k = 0 := by
    by_contra hne
    have := h6 0 (by omega)
    simp only [Function.iterate_zero, id] at this
    omega
  subst hk
  exact ⟨t', h1, h2, h3, h4⟩

/-- C9: threshold decision.  For every scroll event handled by `onScrollback`
on a buffer satisfying the invariant, with `used` the value of `usedBytes()`
before the scrolled line is appended: `onThreshold` is called exactly once if
it is configured and `used > triggerCount` and not at all otherwise, and a
snapshot is taken and dispatched to `onThresholdWithFetch` exactly once if it
is configured and `used > triggerCount` and not otherwise.  The decision
reads only the current state (there is no latch).  In every case the rendered
row followed by CRLF is then passed to `appendHistory`, on the drained buffer
when a snapshot was taken. -/
theorem threshold_decision (fuel : Nat) (t : Term) (row : Int) (ltc : LockedTerminalContext)
    (hwf : WF t) (hfuel : t.size < fuel) :
    ∃ (out : FetchResult) (td : Term) (t' : Term),
      unsafeFetch t ltc = some (out, td) ∧
      onScrollback fuel t row ltc = some (t',
        (if usedBytes t > t.triggerCount ∧ t.onThreshold = true then [Event.threshold]
          else []) ++
        (if usedBytes t > t.triggerCount ∧ t.onThresholdWithFetch = true then
          [Event.thresholdWithFetch out] else [])) ∧
      appendHistory fuel
        (if usedBytes t > t.triggerCount ∧ t.onThresholdWithFetch = true then td else t)
        (ltc.plainRenderLine row ++ [13, 10]) = some t' := by
  have hf := unsafeFetch_of_WF hwf ltc
  have hlen : 0 < (ltc.plainRenderLine row ++ [13, 10]).length := by simp
  by_cases hu : usedBytes t > t.triggerCount
  · by_cases hc : t.onThresholdWithFetch = true
    · obtain ⟨t', h1, _⟩ := appendHistory_total fuel (DropHistory t) _ (WF_DropHistory hwf) hlen
        (by exact hfuel)
      refine ⟨_, _, t', hf, ?_, ?_⟩
      · by_cases ho : t.onThreshold = true <;> simp [onScrollback, hu, hc, hf, h1, ho]
      · rw [if_pos ⟨hu, hc⟩]
        exact h1
    · obtain ⟨t', h1, _⟩ := appendHistory_total fuel t _ hwf hlen hfuel
      refine ⟨_, _, t', hf, ?_, ?_⟩
      · by_cases ho : t.onThreshold = true <;> simp [onScrollback, hu, hc, h1, ho]
      · rw [if_neg (fun h => hc h.2)]
        exact h1
  · obtain ⟨t', h1, _⟩ := appendHistory_total fuel t _ hwf hlen hfuel
    refine ⟨_, _, t', hf, ?_, ?_⟩
    · simp [onScrollback, hu, h1]
    · rw [if_neg (fun h => hu h.1)]
      exact h1

/-- C9 at a concrete input: capacity 8 with six bytes used and
`triggerCount = 4`, only `onThreshold` configured.  The callback fires, and
on the state after that line (seven bytes used) it fires again on the next
line. -/
theorem threshold_decision_witness :
    onScrollback 9 exInner 0 exLtc = some (exScrolled, [Event.threshold]) ∧
    (∃ (out : FetchResult) (td : Term) (t' : Term),
      unsafeFetch exInner exLtc = some (out, td) ∧
      onScrollback 9 exInner 0 exLtc = some (t',
        (if usedBytes exInner > exInner.triggerCount ∧ exInner.onThreshold = true then
          [Event.threshold] else []) ++
        (if usedBytes exInner > exInner.triggerCount ∧ exInner.onThresholdWithFetch = true then
          [Event.thresholdWithFetch out] else [])) ∧
      appendHistory 9
        (if usedBytes exInner > exInner.triggerCount ∧ exInner.onThresholdWithFetch = true then
          td else exInner)
        (exLtc.plainRenderLine 0 ++ [13, 10]) = some t') ∧
    (∃ (out : FetchResult) (td : Term) (t' : Term),
      unsafeFetch exScrolled exLtc = some (out, td) ∧
      onScrollback 9 exScrolled 0 exLtc = some (t',
        (if usedBytes exScrolled > exScrolled.triggerCount ∧ exScrolled.onThreshold = true then
          [Event.threshold] else []) ++
        (if usedBytes exScrolled > exScrolled.triggerCount ∧
            exScrolled.onThresholdWithFetch = true then
          [Event.thresholdWithFetch out] else [])) ∧
      appendHistory 9
        (if usedBytes exScrolled > exScrolled.triggerCount ∧
            exScrolled.onThresholdWithFetch = true then
          td else exScrolled)
        (exLtc.plainRenderLine 0 ++ [13, 10]) = some t') :=
  ⟨by rfl,
    threshold_decision 9 exInner 0 exLtc
      ⟨by decide, by decide, by decide, by decide, by decide⟩ (by decide),
    threshold_decision 9 exScrolled 0 exLtc
      ⟨by decide, by decide, by decide, by decide, by decide⟩ (by decide)⟩

/-- C10: the threshold snapshot excludes the triggering line.  For every
buffer satisfying the invariant with `usedBytes() > triggerCount` and
`onThresholdWithFetch` configured, and every rendered row `s` with
`len(s) + 2 ≤ capacity`, the snapshot that `onScrollback` hands to
`onThresholdWithFetch` has as history the linearized content of before the
call and as missed count the count of before the call, and after the call the
buffer content is exactly `s` followed by CRLF, with `missed == 0`. -/
theorem threshold_snapshot (fuel : Nat) (t : Term) (row : Int) (ltc : LockedTerminalContext)
    (hwf : WF t) (hused : usedBytes t > t.triggerCount) (hcfg : t.onThresholdWithFetch = true)
    (hlen : (ltc.plainRenderLine row).length + 2 ≤ t.size) (hfuel : t.size < fuel) :
    ∃ (c : List Nat) (t' : Term), linearize t = some c ∧
      onScrollback fuel t row ltc = some (t',
        (if t.onThreshold = true then [Event.threshold] else []) ++
        [Event.thresholdWithFetch
          { Screen := ltc.plainRender, History := c, Missed := t.missed }]) ∧
      linearize t' = some (ltc.plainRenderLine row ++ [13, 10]) ∧ t'.missed = 0 := by
  have hf := unsafeFetch_of_WF hwf ltc
  have hd := WF_DropHistory hwf
  obtain ⟨t', h1, h2, h3, h4⟩ := appendHistory_fits fuel (DropHistory t)
    (ltc.plainRenderLine row ++ [13, 10]) hd (by simp)
    (by rw [view_DropHistory]; simpa using hlen) (by exact hfuel)
  rw [view_DropHistory, List.nil_append] at h3
  refine ⟨view t, t', linearize_eq_view hwf, ?_, (linearize_of_view h2 _).mpr h3, ?_⟩
  · by_cases ho : t.onThreshold = true <;> simp [onScrollback, hused, hcfg, hf, h1, ho]
  · rw [h4]; rfl

/-- C10 at a concrete input: capacity 8 holding `a\r\n` `b\r\n` with
`triggerCount = 4`, both callbacks configured, and the row `ab`. -/
theorem threshold_snapshot_witness :
    ∃ (c : List Nat) (t' : Term), linearize exBoth = some c ∧
      onScrollback 9 exBoth 0 exLtc = some (t',
        (if exBoth.onThreshold = true then [Event.threshold] else []) ++
        [Event.thresholdWithFetch
          { Screen := exLtc.plainRender, History := c, Missed := exBoth.missed }]) ∧
      linearize t' = some (exLtc.plainRenderLine 0 ++ [13, 10]) ∧ t'.missed = 0 :=
  threshold_snapshot 9 exBoth 0 exLtc ⟨by decide, by decide, by decide, by decide, by decide⟩
    (by decide) (by decide) (by decide) (by decide)

/-! ## Framing and the reference for `dropOneLine` -/

theorem advance_full (t : Term) :
    (if t.full = true then
      ({ t with head := (t.head + 1) % t.size, full := false } : Term)
      else { t with head := (t.head + 1) % t.size }) =
      { t with head := (t.head + 1) % t.size, full := false } := by
  split_ifs with hf
  · rfl
  · have : t.full = false := by simpa using hf
    simp [this]

theorem dropLoop_frame (fuel : Nat) : ∀ (t : Term) (f : Bool) (t' : Term),
    dropLoop fuel t f = some t' →
    t'.history = t.history ∧ t'.tail = t.tail ∧ (0 < usedBytes t → t'.full = false) ∧
      (¬ 0 < usedBytes t → t' = t) := by
  induction fuel with
  | zero => intro t f t' h; simp [dropLoop] at h
  | succ fuel ih =>
    intro t f t' h
    simp only [dropLoop] at h
    by_cases hu : usedBytes t > 0
    · simp only [hu, if_true] at h
      cases hg : t.history[t.head]? with
      | none => simp [hg] at h
      | some ch =>
        simp only [hg] at h
        by_cases hs : t.size = 0
        · simp [hs] at h
        · simp only [hs, if_false, advance_full] at h
          by_cases hb : (f && ch == 10) = true
          · simp only [hb, if_true, Option.some.injEq] at h
            subst h
            exact ⟨rfl, rfl, fun _ => rfl, fun hn => absurd hu hn⟩
          · simp only [hb, if_false] at h
            obtain ⟨h1, h2, h3, h4⟩ := ih _ _ _ h
            refine ⟨h1, h2, fun _ => ?_, fun hn => absurd hu hn⟩
            by_cases hu2 : 0 < usedBytes
                { t with head := (t.head + 1) % t.size, full := false }
            · exact h3 hu2
            · rw [h4 hu2]
    · simp only [hu, if_false, Option.some.injEq] at h
      subst h
      exact ⟨rfl, rfl, fun hp => absurd hp hu, fun _ => rfl⟩

theorem hasCRLF_append_crlf (a b : List Nat) : hasCRLF (a ++ 13 :: 10 :: b) = true := by
  induction a with
  | nil => simp [hasCRLF]
  | cons x a ih => simp [hasCRLF, ih]

theorem dropLineList_no_crlf : ∀ (c : List Nat) (f : Bool),
    ¬ (f = true ∧ c.head? = some 10) → hasCRLF c = false → dropLineList f c = [] := by
  intro c
  induction c with
  | nil => intro f _ _; rfl
  | cons x c ih =>
    intro f h1 h2
    simp only [hasCRLF, Bool.or_eq_false_iff, Bool.and_eq_false_imp, beq_iff_eq] at h2
    have hb : ¬ ((f && x == 10) = true) := by simpa using h1
    simp only [dropLineList, hb, if_false]
    apply ih
    · rintro ⟨hx, hh⟩
      have hx' : x = 13 := by simpa using hx
      have := h2.1 hx'
      simp [hh] at this
    · exact h2.2

theorem isLine_shortest {p q : List Nat} (hp : IsLine p) (hq : EndsCRLF q) (hpre : q <+: p) :
    q = p := by
  obtain ⟨body, rfl, hc⟩ := hp
  obtain ⟨qb, rfl⟩ := hq
  obtain ⟨s, hs⟩ := hpre
  rcases List.eq_nil_or_concat s with rfl | ⟨s', x, rfl⟩
  · simpa using hs
  · exfalso
    have e : (qb ++ 13 :: 10 :: s' ++ [x]) = (body ++ [13]) ++ [10] := by
      have := hs
      simp only [List.concat_eq_append, List.append_assoc, List.cons_append, List.nil_append] at this
      simp only [List.append_assoc, List.cons_append, List.nil_append]
      exact this
    have e1 := (List.append_inj' e rfl).1
    rw [← e1, hasCRLF_append_crlf] at hc
    exact absurd hc (by simp)

theorem dropLineList_reference (c : List Nat) :
    ∃ p r, c = p ++ r ∧ dropLineList false c = r ∧
      ((IsLine p) ∨ (hasCRLF c = false ∧ p = c ∧ r = [])) := by
  by_cases hh : hasCRLF c = true
  · obtain ⟨p0, s, hp, hq⟩ := first_crlf c hh
    refine ⟨p0 ++ [13, 10], s, by rw [hp]; simp, ?_, Or.inl ⟨p0, rfl, hq⟩⟩
    have : c = (p0 ++ [13, 10]) ++ s := by rw [hp]; simp
    rw [this]
    exact dropLineList_line ⟨p0, rfl, hq⟩ s
  · have hf : hasCRLF c = false := by simpa using hh
    exact ⟨c, [], by simp, dropLineList_no_crlf c false (by simp) hf, Or.inr ⟨hf, rfl, rfl⟩⟩

theorem framed_append {a b : List Nat} (ha : a = [] ∨ EndsCRLF a) (hb : b = [] ∨ EndsCRLF b) :
    a ++ b = [] ∨ EndsCRLF (a ++ b) := by
  rcases hb with rfl | ⟨body, rfl⟩
  · simpa using ha
  · exact Or.inr ⟨a ++ body, by simp⟩

theorem dropLineList_split (c : List Nat) (hc : c = [] ∨ EndsCRLF c) :
    ∃ e, c = e ++ dropLineList false c ∧ (e = [] ∨ EndsCRLF e) := by
  obtain ⟨p, r, h1, h2, h3⟩ := dropLineList_reference c
  rcases h3 with hp | ⟨hno, _, _⟩
  · exact ⟨p, by rw [h2]; exact h1, Or.inr (isLine_endsCRLF hp)⟩
  · rcases hc with rfl | ⟨body, rfl⟩
    · exact ⟨[], rfl, Or.inl rfl⟩
    · have := hasCRLF_append_crlf body []
      rw [this] at hno
      cases hno

theorem iterate_dropLine_split (k : Nat) : ∀ (c : List Nat), (c = [] ∨ EndsCRLF c) →
    ∃ e, c = e ++ (dropLineList false)^[k] c ∧ (e = [] ∨ EndsCRLF e) := by
  induction k with
  | zero => intro c _; exact ⟨[], rfl, Or.inl rfl⟩
  | succ k ih =>
    intro c hc
    obtain ⟨e1, h1, f1⟩ := dropLineList_split c hc
    have hfr : dropLineList false c = [] ∨ EndsCRLF (dropLineList false c) := by
      rcases hc with hc | hc
      · exact dropLineList_framed _ false (Or.inl hc)
      · exact dropLineList_framed _ false (Or.inr (Or.inl hc))
    obtain ⟨e2, h2, f2⟩ := ih _ hfr
    refine ⟨e1 ++ e2, ?_, framed_append f1 f2⟩
    rw [Function.iterate_succ_apply, List.append_assoc, ← h2]
    exact h1

theorem trace_reachable {t : Term} {acc : List Nat} (h : ReachableTrace t acc) :
    Reachable t := by
  induction h with
  | start size tc a b h => exact Reachable.start size tc a b h
  | append fuel t acc b t' _ hb _ h ih => exact Reachable.append fuel t b t' ih hb h
  | reject fuel t acc b t' _ hb _ h ih => exact Reachable.append fuel t b t' ih hb h
  | drop fuel t acc t' _ h ih => exact Reachable.drop fuel t t' ih h
  | fetch t acc ltc out t' _ h ih => exact Reachable.fetch t ltc out t' ih h
  | dropHistory t acc _ ih => exact Reachable.dropHistory t ih

theorem reachable_has_trace {t : Term} (h : Reachable t) : ∃ acc, ReachableTrace t acc := by
  induction h with
  | start size tc a b h => exact ⟨[], ReachableTrace.start size tc a b h⟩
  | append fuel t b t' _ hb h ih =>
    obtain ⟨acc, ha⟩ := ih
    by_cases hfit : b.length ≤ t.size
    · exact ⟨acc ++ b, ReachableTrace.append fuel t acc b t' ha hb hfit h⟩
    · exact ⟨acc, ReachableTrace.reject fuel t acc b t' ha hb (by omega) h⟩
  | drop fuel t t' _ h ih =>
    obtain ⟨acc, ha⟩ := ih
    exact ⟨acc, ReachableTrace.drop fuel t acc t' ha h⟩
  | fetch t ltc out t' _ h ih =>
    obtain ⟨acc, ha⟩ := ih
    exact ⟨[], ReachableTrace.fetch t acc ltc out t' ha h⟩
  | dropHistory t _ ih =>
    obtain ⟨acc, ha⟩ := ih
    exact ⟨[], ReachableTrace.dropHistory t acc ha⟩

theorem trace_inv {t : Term} {acc : List Nat} (h : ReachableTrace t acc) :
    ∃ p, acc = p ++ view t ∧ (p = [] ∨ EndsCRLF p) := by
  induction h with
  | start size tc a b h =>
    refine ⟨[], ?_, Or.inl rfl⟩
    simp [view, usedBytes, newTerm]
  | append fuel t acc b t' ht hb hfit h ih =>
    obtain ⟨hwf, hfr⟩ := reachable_inv (trace_reachable ht)
    obtain ⟨p, hp, fp⟩ := ih
    have hb2 := endsCRLF_two_le hb
    obtain ⟨k, t2, h1, _, h3, _⟩ :=
      appendHistory_spec (max fuel (t.size + 1)) t b hwf (by omega) hfit (by omega)
    have := appendHistory_mono fuel t b t' h (max fuel (t.size + 1)) (by omega)
    rw [this] at h1
    simp only [Option.some.injEq] at h1
    subst h1
    obtain ⟨e, he, fe⟩ := iterate_dropLine_split k (view t) hfr
    refine ⟨p ++ e, ?_, framed_append fp fe⟩
    rw [h3, hp]
    nth_rewrite 1 [he]
    simp
  | reject fuel t acc b t' ht hb hbig h ih =>
    obtain ⟨hwf, _⟩ := reachable_inv (trace_reachable ht)
    have hs : t.size ≠ 0 := by have := hwf.pos; omega
    have hstep : appendHistory fuel t b = some { t with missed := t.missed + 1 } := by
      simp only [appendHistory, hs, if_false, gt_iff_lt, hbig, if_true]
    rw [hstep] at h
    simp only [Option.some.injEq] at h
    subst h
    exact ih
  | drop fuel t acc t' ht h ih =>
    obtain ⟨hwf, hfr⟩ := reachable_inv (trace_reachable ht)
    obtain ⟨p, hp, fp⟩ := ih
    obtain ⟨t2, h1, _, h3, _⟩ :=
      dropOneLine_spec (max fuel ((view t).length + 1)) t hwf (by omega)
    have := dropOneLine_mono fuel t t' h (max fuel ((view t).length + 1)) (by omega)
    rw [this] at h1
    simp only [Option.some.injEq] at h1
    subst h1
    obtain ⟨e, he, fe⟩ := dropLineList_split (view t) hfr
    refine ⟨p ++ e, ?_, framed_append fp fe⟩
    rw [h3, hp]
    nth_rewrite 1 [he]
    simp
  | fetch t acc ltc out t' _ h _ =>
    rw [(unsafeFetch_state h).1, view_DropHistory]
    exact ⟨[], rfl, Or.inl rfl⟩
  | dropHistory t acc _ _ =>
    rw [view_DropHistory]
    exact ⟨[], rfl, Or.inl rfl⟩

theorem exTrace_reached :
    ReachableTrace exInnerAfter [97, 13, 10, 98, 13, 10, 120, 121, 13, 10] :=
  ReachableTrace.append 9 exInner [97, 13, 10, 98, 13, 10] exLine exInnerAfter
    (ReachableTrace.append 9 _ [97, 13, 10] [98, 13, 10] exInner
      (ReachableTrace.append 9 (newTerm 8 4 true false) [] [97, 13, 10] _
        (ReachableTrace.start 8 4 true false (by decide)) ⟨[97], rfl⟩ (by decide) (by rfl))
      ⟨[98], rfl⟩ (by decide) (by rfl))
    ⟨[120, 121], rfl⟩ (by decide) (by rfl)

/-- C16: line-framing invariant.  In every state reachable from a freshly
constructed buffer of capacity at least one by `appendHistory` on byte
sequences ending in CRLF, `dropOneLine`, `unsafeFetch` and `DropHistory`, the
linearized content `[head, tail)` is empty or ends in CRLF, and it is a
concatenation of complete lines, each ending in CRLF with no other CRLF
inside.  Moreover the content is a suffix of the bytes `acc` accepted since
the last drain, cut at a line boundary: `acc = p ++ c` where the evicted part
`p` is itself empty or ends in CRLF, so `acc` is a sequence of complete lines
`gone ++ kept` of which the buffer holds exactly the lines `kept`.  There is
no partial line at the front or at the back. -/
theorem line_framing_invariant (t : Term) (h : Reachable t) :
    (∃ c : List Nat, linearize t = some c ∧ (c = [] ∨ EndsCRLF c) ∧
      ∃ ls : List (List Nat), (∀ l ∈ ls, IsLine l) ∧ ls.flatten = c) ∧
    (∃ acc : List Nat, ReachableTrace t acc) ∧
    ∀ acc : List Nat, ReachableTrace t acc →
      ∃ p c : List Nat, linearize t = some c ∧ acc = p ++ c ∧
        (p = [] ∨ EndsCRLF p) ∧ (c = [] ∨ EndsCRLF c) ∧
        ∃ gone kept : List (List Nat), (∀ l ∈ gone, IsLine l) ∧ (∀ l ∈ kept, IsLine l) ∧
          gone.flatten = p ∧ kept.flatten = c ∧ acc = (gone ++ kept).flatten := by
  obtain ⟨hwf, hfr⟩ := reachable_inv h
  refine ⟨⟨view t, linearize_eq_view hwf, hfr, exists_lines (view t) hfr⟩,
    reachable_has_trace h, ?_⟩
  intro acc ha
  obtain ⟨p, hp, fp⟩ := trace_inv ha
  obtain ⟨gone, g1, g2⟩ := exists_lines p fp
  obtain ⟨kept, k1, k2⟩ := exists_lines (view t) hfr
  exact ⟨p, view t, linearize_eq_view hwf, hp, fp, hfr, gone, kept, g1, k1, g2, k2,
    by rw [List.flatten_append, g2, k2, hp]⟩

/-- C16 at a concrete input: the buffer of capacity 8 after appending `a\r\n`,
`b\r\n` and `xy\r\n`; the last append evicts the line `a\r\n`, and the content
`b\r\nxy\r\n` is the accepted input without that first line. -/
theorem line_framing_invariant_witness :
    Reachable exInnerAfter ∧
    ReachableTrace exInnerAfter [97, 13, 10, 98, 13, 10, 120, 121, 13, 10] ∧
    linearize exInnerAfter = some [98, 13, 10, 120, 121, 13, 10] ∧
    ∃ p c : List Nat, linearize exInnerAfter = some c ∧
      [97, 13, 10, 98, 13, 10, 120, 121, 13, 10] = p ++ c ∧
      (p = [] ∨ EndsCRLF p) ∧ (c = [] ∨ EndsCRLF c) ∧
      ∃ gone kept : List (List Nat), (∀ l ∈ gone, IsLine l) ∧ (∀ l ∈ kept, IsLine l) ∧
        gone.flatten = p ∧ kept.flatten = c ∧
        [97, 13, 10, 98, 13, 10, 120, 121, 13, 10] = (gone ++ kept).flatten :=
  ⟨trace_reachable exTrace_reached, exTrace_reached, by decide,
    (line_framing_invariant exInnerAfter (trace_reachable exTrace_reached)).2.2 _
      exTrace_reached⟩

/-- C17: `dropOneLine` equals its reference definition.  For every buffer
state satisfying the index invariant, with linearized content `c`: if `c` is
empty the state is unchanged (`missed` is not incremented); otherwise
`dropOneLine` terminates and removes from the front exactly the shortest
prefix `p` of `c` that ends in CRLF, or all of `c` when `c` contains no CRLF
(the buffer then becomes empty); it clears `full`, leaves the storage bytes
and `tail` unchanged, and increments `missed` by exactly one. -/
theorem dropOneLine_reference (fuel : Nat) (t : Term) (hwf : WF t) (hfuel : t.size < fuel) :
    ∃ (c : List Nat) (t' : Term), linearize t = some c ∧ dropOneLine fuel t = some t' ∧
      (c = [] → t' = t) ∧
      (c ≠ [] → ∃ p r : List Nat, c = p ++ r ∧ linearize t' = some r ∧
        ((EndsCRLF p ∧ ∀ q : List Nat, q <+: c → EndsCRLF q → p.length ≤ q.length) ∨
          (hasCRLF c = false ∧ p = c ∧ r = [])) ∧
        t'.full = false ∧ t'.tail = t.tail ∧ t'.history = t.history ∧
        t'.missed = t.missed + 1 ∧ WF t') := by
  have hl := view_length hwf
  have hr := usedBytes_range hwf
  have hfuel' : (view t).length < fuel := by omega
  obtain ⟨t', h1, h2, h3, h4, _⟩ := dropOneLine_spec fuel t hwf hfuel'
  refine ⟨view t, t', linearize_eq_view hwf, h1, ?_, ?_⟩
  · intro hnil
    have hu : usedBytes t = 0 := by rw [hnil] at hl; simpa using hl.symm
    simp only [dropOneLine, hu, if_true, Option.some.injEq] at h1
    exact h1.symm
  · intro hne
    have hu : ¬ usedBytes t = 0 := by
      intro hu
      apply hne
      apply List.eq_nil_of_length_eq_zero
      omega
    obtain ⟨p, r, e1, e2, e3⟩ := dropLineList_reference (view t)
    rw [e2] at h3
    rw [if_neg hne] at h4
    have hframe : t'.full = false ∧ t'.tail = t.tail ∧ t'.history = t.history := by
      simp only [dropOneLine, hu, if_false] at h1
      cases hd : dropLoop fuel t false with
      | none => simp [hd] at h1
      | some t1 =>
        simp only [hd, Option.some_bind, Option.some.injEq] at h1
        obtain ⟨g1, g2, g3, _⟩ := dropLoop_frame fuel t false t1 hd
        subst h1
        exact ⟨g3 (by omega), g2, g1⟩
    refine ⟨p, r, e1, (linearize_of_view h2 _).mpr h3, ?_, hframe.1, hframe.2.1, hframe.2.2,
      h4, h2⟩
    rcases e3 with hp | hno
    · left
      refine ⟨isLine_endsCRLF hp, ?_⟩
      intro q hq hqe
      by_contra hlt
      have hqp : q <+: p := by
        rw [e1] at hq
        exact List.prefix_of_prefix_length_le hq (List.prefix_append p r) (by omega)
      have := isLine_shortest hp hqe hqp
      rw [this] at hlt
      omega
    · right; exact hno

/-- C17 at a concrete input: capacity 8 holding `a\r\nb\r\n`. -/
theorem dropOneLine_reference_witness :
    ∃ (c : List Nat) (t' : Term), linearize exInner = some c ∧
      dropOneLine 9 exInner = some t' ∧ (c = [] → t' = exInner) ∧
      (c ≠ [] → ∃ p r : List Nat, c = p ++ r ∧ linearize t' = some r ∧
        ((EndsCRLF p ∧ ∀ q : List Nat, q <+: c → EndsCRLF q → p.length ≤ q.length) ∨
          (hasCRLF c = false ∧ p = c ∧ r = [])) ∧
        t'.full = false ∧ t'.tail = exInner.tail ∧ t'.history = exInner.history ∧
        t'.missed = exInner.missed + 1 ∧ WF t') :=
  dropOneLine_reference 9 exInner ⟨by decide, by decide, by decide, by decide, by decide⟩
    (by decide)

/-! ## Arbitrary byte sequences -/

theorem appendHistory_nil (fuel : Nat) (t : Term) (hwf : WF t) (hfuel : 1 ≤ fuel) :
    appendHistory fuel t [] =
      some (if t.tail = t.head then { t with full := true } else t) := by
  have hr := usedBytes_range hwf
  have hs : t.size ≠ 0 := by have := hwf.pos; omega
  obtain ⟨n, rfl⟩ : ∃ n, fuel = n + 1 := ⟨fuel - 1, by omega⟩
  have hg : ¬ ((t.size : Int) - usedBytes t < ((0 : Nat) : Int)) := by
    simp only [Nat.cast_zero]; omega
  have hmod : t.tail % t.size = t.tail := Nat.mod_eq_of_lt hwf.tail
  have hlen : t.tail ≤ t.history.length := by rw [hwf.len]; exact hwf.tail.le
  simp only [appendHistory, hs, if_false, List.length_nil, gt_iff_lt, Nat.not_lt_zero,
    ensureSpace, hg, Option.some_bind, writeWrap, copyAt, hlen, if_true, Nat.min_zero,
    List.take_zero, List.append_nil, Nat.add_zero, List.take_append_drop, Nat.lt_irrefl, hmod]

theorem appendHistory_any (fuel : Nat) (t : Term) (b : List Nat) (hwf : WF t)
    (hfuel : t.size < fuel) :
    ∃ t', appendHistory fuel t b = some t' ∧ WF t' ∧ SameConfig t t' := by
  rcases Nat.eq_zero_or_pos b.length with h0 | hpos
  · have hb : b = [] := List.eq_nil_of_length_eq_zero h0
    subst hb
    refine ⟨_, appendHistory_nil fuel t hwf (by omega), ?_, ?_⟩
    · split_ifs with e
      · exact ⟨hwf.len, hwf.pos, hwf.head, hwf.tail, fun _ => e.symm⟩
      · exact hwf
    · split_ifs <;> exact ⟨rfl, rfl, rfl, rfl⟩
  · by_cases hbig : b.length > t.size
    · have hs : t.size ≠ 0 := by have := hwf.pos; omega
      exact ⟨{ t with missed := t.missed + 1 },
        by simp only [appendHistory, hs, if_false, hbig, if_true],
        ⟨hwf.len, hwf.pos, hwf.head, hwf.tail, hwf.full⟩, rfl, rfl, rfl, rfl⟩
    · obtain ⟨k, t', h1, h2, _, _, _, _, h7⟩ :=
        appendHistory_spec fuel t b hwf hpos (by omega) hfuel
      exact ⟨t', h1, h2, h7⟩

theorem appendHistory_preserves (fuel : Nat) (t : Term) (b : List Nat) (t' : Term)
    (hwf : WF t) (h : appendHistory fuel t b = some t') : WF t' ∧ SameConfig t t' := by
  obtain ⟨t2, h1, h2, h3⟩ := appendHistory_any (max fuel (t.size + 1)) t b hwf (by omega)
  have := appendHistory_mono fuel t b t' h (max fuel (t.size + 1)) (by omega)
  rw [this] at h1
  simp only [Option.some.injEq] at h1
  subst h1
  exact ⟨h2, h3⟩

theorem dropOneLine_any (fuel : Nat) (t : Term) (hwf : WF t) (hfuel : t.size < fuel) :
    ∃ t', dropOneLine fuel t = some t' ∧ WF t' ∧ SameConfig t t' ∧
      (0 < usedBytes t → usedBytes t' < usedBytes t) := by
  have hl := view_length hwf
  have hr := usedBytes_range hwf
  obtain ⟨t', h1, h2, h3, _, h5⟩ := dropOneLine_spec fuel t hwf (by omega)
  refine ⟨t', h1, h2, h5, ?_⟩
  intro hpos
  have hne : view t ≠ [] := by
    intro e; rw [e] at hl; simp at hl; omega
  have hlt := dropLineList_length_lt false (view t) hne
  rw [← h3] at hlt
  have hl' := view_length h2
  omega

theorem dropOneLine_preserves (fuel : Nat) (t t' : Term) (hwf : WF t)
    (h : dropOneLine fuel t = some t') : WF t' ∧ SameConfig t t' := by
  obtain ⟨t2, h1, h2, h3, _⟩ := dropOneLine_any (max fuel (t.size + 1)) t hwf (by omega)
  have := dropOneLine_mono fuel t t' h (max fuel (t.size + 1)) (by omega)
  rw [this] at h1
  simp only [Option.some.injEq] at h1
  subst h1
  exact ⟨h2, h3⟩

theorem reachableAny_WF {t : Term} (h : ReachableAny t) : WF t := by
  induction h with
  | start size tc a b h => exact WF_newTerm size tc a b h
  | append fuel t b t' _ h ih => exact (appendHistory_preserves fuel t b t' ih h).1
  | drop fuel t t' _ h ih => exact (dropOneLine_preserves fuel t t' ih h).1
  | fetch t ltc out t' _ h ih =>
    obtain ⟨e, _⟩ := unsafeFetch_state h
    subst e
    exact WF_DropHistory ih
  | dropHistory t _ ih => exact WF_DropHistory ih

/-- C18: `DropHistory` is `unsafeFetch` without the linearization.  For every
buffer state, the state after `unsafeFetch` (whenever it returns, which it
does on every state satisfying the invariant) is the state after
`DropHistory` from the same state, field by field; both leave the storage
array and `tail` untouched and only set `head = tail`, `full = false` and
`missed = 0`. -/
theorem dropHistory_is_fetch_state (t : Term) (ltc : LockedTerminalContext) :
    (∀ (out : FetchResult) (t' : Term), unsafeFetch t ltc = some (out, t') →
      t' = DropHistory t) ∧
    (WF t → ∃ out : FetchResult, unsafeFetch t ltc = some (out, DropHistory t)) ∧
    (DropHistory t).history = t.history ∧ (DropHistory t).tail = t.tail ∧
    (DropHistory t).size = t.size ∧ (DropHistory t).head = t.tail ∧
    (DropHistory t).full = false ∧ (DropHistory t).missed = 0 ∧
    (DropHistory t).triggerCount = t.triggerCount ∧
    (DropHistory t).onThreshold = t.onThreshold ∧
    (DropHistory t).onThresholdWithFetch = t.onThresholdWithFetch := by
  refine ⟨?_, ?_, rfl, rfl, rfl, rfl, rfl, rfl, rfl, rfl, rfl⟩
  · intro out t' h
    exact (unsafeFetch_state h).1
  · intro hwf
    exact ⟨_, unsafeFetch_of_WF hwf ltc⟩

/-- C18 at a concrete input: the wrapped buffer of capacity 8 holding seven
bytes, with one line missed. -/
theorem dropHistory_is_fetch_state_witness :
    unsafeFetch exScrolled exLtc =
        some ({ Screen := [], History := [98, 13, 10, 97, 98, 13, 10], Missed := 1 },
          DropHistory exScrolled) ∧
      ∃ out : FetchResult, unsafeFetch exScrolled exLtc = some (out, DropHistory exScrolled) :=
  ⟨by rfl, (dropHistory_is_fetch_state exScrolled exLtc).2.1
    ⟨by decide, by decide, by decide, by decide, by decide⟩⟩

/-- C20: the buffer logic never crashes or hangs.  For every state reachable
from a freshly constructed buffer of capacity at least one (by appends of
arbitrary byte sequences, evictions and drains) and every byte sequence `b`
of any length and content, `appendHistory(b)`, `dropOneLine` and
`unsafeFetch` return: no index or slice bound is out of range, there is no
modulo by zero, and the loops terminate within `size + 1` iterations.  In the
eviction loop, whenever the loop test holds the buffer is non-empty and the
`dropOneLine` call strictly decreases `usedBytes()`. -/
theorem never_crashes (t : Term) (h : ReachableAny t) (b : List Nat)
    (ltc : LockedTerminalContext) (fuel : Nat) (hfuel : t.size < fuel) :
    (∃ t', appendHistory fuel t b = some t' ∧ WF t') ∧
    (∃ t', dropOneLine fuel t = some t' ∧ WF t') ∧
    (∃ (out : FetchResult) (t' : Term), unsafeFetch t ltc = some (out, t') ∧ WF t') ∧
    (∀ t1 : Term, WF t1 → t1.size = t.size → b.length ≤ t.size →
      (t1.size : Int) - usedBytes t1 < (b.length : Int) →
      0 < usedBytes t1 ∧ ∃ t2, dropOneLine fuel t1 = some t2 ∧ WF t2 ∧ t2.size = t1.size ∧
        usedBytes t2 < usedBytes t1) := by
  have hwf := reachableAny_WF h
  refine ⟨?_, ?_, ?_, ?_⟩
  · obtain ⟨t', h1, h2, _⟩ := appendHistory_any fuel t b hwf hfuel
    exact ⟨t', h1, h2⟩
  · obtain ⟨t', h1, h2, _⟩ := dropOneLine_any fuel t hwf hfuel
    exact ⟨t', h1, h2⟩
  · exact ⟨_, _, unsafeFetch_of_WF hwf ltc, WF_DropHistory hwf⟩
  · intro t1 hwf1 hsz hb hguard
    have hpos : 0 < usedBytes t1 := by omega
    obtain ⟨t2, h1, h2, h3, h4⟩ := dropOneLine_any fuel t1 hwf1 (by omega)
    exact ⟨hpos, t2, h1, h2, h3.1, h4 hpos⟩

/-- C20 at a concrete input: the buffer of capacity 4 that a zero-length
append has marked full, and the unterminated byte sequence `xyz`. -/
theorem never_crashes_witness :
    (∃ t', appendHistory 5 exEmptyAfter [120, 121, 122] = some t' ∧ WF t') ∧
    (∃ t', dropOneLine 5 exEmptyAfter = some t' ∧ WF t') ∧
    (∃ (out : FetchResult) (t' : Term), unsafeFetch exEmptyAfter exLtc = some (out, t') ∧
      WF t') ∧
    (∀ t1 : Term, WF t1 → t1.size = exEmptyAfter.size →
      [120, 121, 122].length ≤ exEmptyAfter.size →
      (t1.size : Int) - usedBytes t1 < (([120, 121, 122] : List Nat).length : Int) →
      0 < usedBytes t1 ∧ ∃ t2, dropOneLine 5 t1 = some t2 ∧ WF t2 ∧ t2.size = t1.size ∧
        usedBytes t2 < usedBytes t1) :=
  never_crashes exEmptyAfter
    (ReachableAny.append 5 exEmpty [] exEmptyAfter
      (ReachableAny.start 4 2 false false (by decide)) (by rfl))
    [120, 121, 122] exLtc 5 (by decide)

/-! ## Closing -/

theorem closeCalls_done : ∀ (rs : List GoError) (s : CloseState), s.closerDone = true →
    closeCalls s rs = (List.replicate rs.length none, s) := by
  intro rs
  induction rs with
  | nil => intro s _; rfl
  | cons r rs ih =>
    intro s hs
    have hc : Close s r = (none, s) := by simp [Close, hs]
    simp only [closeCalls, hc, ih s hs, List.length_cons, List.replicate_succ]

theorem closeCalls_fresh (r : GoError) (rs : List GoError) :
    closeCalls freshCloseState (r :: rs) =
      (r :: List.replicate rs.length none, { closerDone := true, ptyCloses := 1 }) := by
  have hc : Close freshCloseState r = (r, { closerDone := true, ptyCloses := 1 }) := rfl
  simp only [closeCalls, hc, closeCalls_done rs { closerDone := true, ptyCloses := 1 } rfl]

/-- C13: `Close` is idempotent.  For every sequence of one or more `Close`
calls on a session, `t.ptmx.Close()` is executed exactly once, by the first
call (every later call leaves the count at one), and at most one of the calls
returns a non-nil error. -/
theorem close_idempotent (rs : List GoError) (hne : rs ≠ []) :
    (closeCalls freshCloseState rs).2.ptyCloses = 1 ∧
      (∀ r ∈ rs.take 1, (Close freshCloseState r).2.ptyCloses = 1) ∧
      (∀ k, 1 ≤ k → (closeCalls freshCloseState (rs.take k)).2.ptyCloses = 1) ∧
      (closeCalls freshCloseState rs).1.length = rs.length ∧
      ((closeCalls freshCloseState rs).1.filter (fun e => e.isSome)).length ≤ 1 := by
  obtain ⟨r, rs, rfl⟩ := List.exists_cons_of_ne_nil hne
  refine ⟨by rw [closeCalls_fresh], ?_, ?_, by rw [closeCalls_fresh]; simp, ?_⟩
  · intro x hx
    simp only [List.take_succ_cons, List.take_zero, List.mem_singleton] at hx
    subst hx
    rfl
  · intro k hk
    obtain ⟨n, rfl⟩ : ∃ n, k = n + 1 := ⟨k - 1, by omega⟩
    rw [List.take_succ_cons, closeCalls_fresh]
  · rw [closeCalls_fresh]
    have : (List.replicate rs.length (none : GoError)).filter (fun e => e.isSome) = [] := by
      rw [List.filter_eq_nil_iff]
      intro a ha
      rw [List.eq_of_mem_replicate ha]
      simp
    cases r <;> simp [List.filter_cons, this]

/-- C13 at a concrete input: three calls, the pty close failing. -/
theorem close_idempotent_witness :
    (closeCalls freshCloseState [some "EIO", some "EIO", some "EIO"]).2.ptyCloses = 1 ∧
      (closeCalls freshCloseState [some "EIO", some "EIO", some "EIO"]).1 =
        [some "EIO", none, none] ∧
      ((closeCalls freshCloseState [some "EIO", some "EIO", some "EIO"]).1.filter
        (fun e => e.isSome)).length ≤ 1 :=
  ⟨(close_idempotent [some "EIO", some "EIO", some "EIO"] (by simp)).1, by decide,
    (close_idempotent [some "EIO", some "EIO", some "EIO"] (by simp)).2.2.2.2⟩

/-- C14, as stated, fails when the pty close returns an error: with outcome
`EIO` and two calls, the first call returns `EIO` and the repeated call
returns `nil`, not the same outcome. -/
theorem close_same_result_counterexample :
    (closeCalls freshCloseState (List.replicate 2 (some "EIO"))).1 = [some "EIO", none] ∧
      ¬ ∀ e ∈ (closeCalls freshCloseState (List.replicate 2 (some "EIO"))).1,
        e = some "EIO" := by
  constructor
  · decide
  · intro h
    have := h none (by decide)
    simp at this

/-- C14, amended: for every session, every outcome `r` of the underlying pty
close and every number `n + 1` of calls, the first call to `Close` returns
`r` and each repeated call returns `nil`; every call returns the same outcome
`r` exactly when that outcome is `nil` or `Close` is called only once. -/
theorem close_results (r : GoError) (n : Nat) :
    (closeCalls freshCloseState (List.replicate (n + 1) r)).1 = r :: List.replicate n none ∧
      ((∀ e ∈ (closeCalls freshCloseState (List.replicate (n + 1) r)).1, e = r) ↔
        (r = none ∨ n = 0)) := by
  have h : (closeCalls freshCloseState (List.replicate (n + 1) r)).1 =
      r :: List.replicate n none := by
    rw [List.replicate_succ, closeCalls_fresh]
    simp
  refine ⟨h, ?_⟩
  rw [h]
  constructor
  · intro hall
    rcases n with _ | n
    · exact Or.inr rfl
    · left
      exact (hall none (by simp [List.replicate_succ])).symm
  · rintro (hr | hn) e he
    · subst hr
      rcases List.mem_cons.mp he with rfl | he
      · rfl
      · exact List.eq_of_mem_replicate he
    · subst hn
      simpa using he

/-- C14 (amended) at concrete inputs: three calls with the pty close
returning `nil` all return `nil`; three calls with the pty close failing do
not all return the error. -/
theorem close_results_witness :
    ((closeCalls freshCloseState (List.replicate (2 + 1) none)).1 =
        none :: List.replicate 2 none ∧
      ∀ e ∈ (closeCalls freshCloseState (List.replicate (2 + 1) none)).1, e = none) ∧
    ((closeCalls freshCloseState (List.replicate (2 + 1) (some "EIO"))).1 =
        some "EIO" :: List.replicate 2 none ∧
      ¬ ∀ e ∈ (closeCalls freshCloseState (List.replicate (2 + 1) (some "EIO"))).1,
        e = some "EIO") :=
  ⟨⟨(close_results none 2).1, (close_results none 2).2.mpr (Or.inl rfl)⟩,
    (close_results (some "EIO") 2).1,
    fun hall => by
      have h := (close_results (some "EIO") 2).2.mp hall
      simp at h⟩

/-! ## Rounding to `float32` -/

theorem bitLen_le_iff (n k : Nat) : bitLen n ≤ k ↔ n < 2 ^ k := by
  unfold bitLen
  split_ifs with h
  · subst h
    simp
  · rw [Nat.succ_le_iff, Nat.log2_lt h]

theorem roundShift_of_dvd (n s : Nat) (h : 2 ^ s ∣ n) : roundShift n s = n / 2 ^ s := by
  have hr : n % 2 ^ s = 0 := Nat.mod_eq_zero_of_dvd h
  have hp : 0 < 2 ^ s := Nat.two_pow_pos _
  simp [roundShift, hr, hp]

/-- A magnitude with at most 24 significant bits that is a multiple of
`2^-149` and below `2^128` needs no rounding. -/
theorem roundF32_exact (neg : Bool) (k j u : Nat) (hk : k < 2 ^ 24) (hj : u ≤ j + 149)
    (hlt : k * 2 ^ (j + 149 - u) < 2 ^ 277) :
    roundF32 neg (k * 2 ^ j) u = F32.fin neg (k * 2 ^ (j + 149 - u)) := by
  have hL : bitLen (k * 2 ^ j) ≤ 24 + j := by
    rw [bitLen_le_iff, Nat.pow_add]
    exact Nat.mul_lt_mul_of_lt_of_le hk (le_refl _) (Nat.two_pow_pos _)
  have hmag : (if (max (bitLen (k * 2 ^ j) : Int) ((u : Int) - 125)) - 24 ≤ 0 then
        k * 2 ^ j * 2 ^ (149 - u)
      else roundShift (k * 2 ^ j) ((max (bitLen (k * 2 ^ j) : Int) ((u : Int) - 125)) - 24).toNat *
        2 ^ ((max (bitLen (k * 2 ^ j) : Int) ((u : Int) - 125)) - 24 + 149 - (u : Int)).toNat) =
      k * 2 ^ (j + 149 - u) := by
    generalize hs : (max (bitLen (k * 2 ^ j) : Int) ((u : Int) - 125)) - 24 = s
    have hs1 : s ≤ j := by omega
    have hs2 : (u : Int) - 149 ≤ s := by omega
    split_ifs with h0
    · have hu : u ≤ 149 := by omega
      rw [Nat.mul_assoc, ← Nat.pow_add]
      congr 2
      omega
    · obtain ⟨a, ha⟩ : ∃ a : Nat, s = (a : Int) := ⟨s.toNat, by omega⟩
      subst ha
      have haj : a ≤ j := by omega
      have hdvd : 2 ^ a ∣ k * 2 ^ j := Dvd.dvd.mul_left (Nat.pow_dvd_pow 2 haj) k
      rw [Int.toNat_ofNat, roundShift_of_dvd _ _ hdvd]
      have e1 : k * 2 ^ j / 2 ^ a = k * 2 ^ (j - a) := by
        have : k * 2 ^ j = k * 2 ^ (j - a) * 2 ^ a := by
          rw [Nat.mul_assoc, ← Nat.pow_add]
          congr 2
          omega
        rw [this, Nat.mul_div_cancel _ (Nat.two_pow_pos _)]
      have e2 : ((a : Int) + 149 - (u : Int)).toNat = a + 149 - u := by omega
      rw [e1, e2, Nat.mul_assoc, ← Nat.pow_add]
      congr 2
      omega
  unfold roundF32
  simp only [hmag, hlt, if_true]

theorem F32_ofInt_exact (n : Nat) (hn : n < 2 ^ 24) :
    F32.ofInt (n : Int) = F32.fin false (n * 2 ^ 149) := by
  have h := roundF32_exact false n 0 0 hn (by omega) (by
    have : n * 2 ^ 149 < 2 ^ 24 * 2 ^ 149 :=
      Nat.mul_lt_mul_of_lt_of_le hn (le_refl _) (Nat.two_pow_pos _)
    calc n * 2 ^ (0 + 149 - 0) = n * 2 ^ 149 := rfl
      _ < 2 ^ 24 * 2 ^ 149 := this
      _ < 2 ^ 277 := by norm_num)
  simp only [Nat.pow_zero, Nat.mul_one] at h
  have hneg : decide ((n : Int) < 0) = false := by simp
  simp only [F32.ofInt, hneg, Int.natAbs_ofNat]
  exact h

/-! ## Configuration -/

theorem F32_ge1_not_le0 (x : F32) (h : x.ge1 = true) : x.le0 = false := by
  cases x with
  | nan => simp [F32.ge1] at h
  | inf neg => cases neg <;> simp [F32.ge1, F32.le0] at h ⊢
  | fin neg mag =>
    cases neg
    · simp only [F32.ge1, Bool.not_false, Bool.true_and, decide_eq_true_eq] at h
      have hp : 0 < 2 ^ 149 := Nat.two_pow_pos _
      have : mag ≠ 0 := by omega
      simp [F32.le0, this]
    · simp [F32.ge1] at h

theorem normalize_size (undef : Int) (hc : HistoryConfig) :
    (normalizeHistoryConfig undef hc).1.Size = (if hc.Size ≤ 0 then 4096 else hc.Size) ∧
      0 < (normalizeHistoryConfig undef hc).1.Size ∧
      (normalizeHistoryConfig undef hc).1.Threshold =
        (if hc.Threshold.le0 = true then defaultHistoryThreshold else hc.Threshold) := by
  unfold normalizeHistoryConfig
  by_cases hs : hc.Size ≤ 0 <;> by_cases hl : hc.Threshold.le0 = true <;>
    simp only [hs, hl, if_true, if_false] <;> split_ifs <;>
    simp [defaultHistorySize] <;> omega

theorem wrapInt_of_range (x : Int) (h1 : -9223372036854775808 ≤ x)
    (h2 : x < 9223372036854775808) : wrapInt x = x := by
  unfold wrapInt
  omega

theorem normalize_ge1 (undef : Int) (hc : HistoryConfig) (hge : hc.Threshold.ge1 = true) :
    (normalizeHistoryConfig undef hc).2 =
        wrapInt ((normalizeHistoryConfig undef hc).1.Size + 1) ∧
      (normalizeHistoryConfig undef hc).1.OnThreshold = false ∧
      (normalizeHistoryConfig undef hc).1.OnThresholdWithFetchCallback = false := by
  have hle := F32_ge1_not_le0 _ hge
  unfold normalizeHistoryConfig
  by_cases hs : hc.Size ≤ 0 <;> simp [hs, hle, hge]

theorem normalize_fraction (undef : Int) (hc : HistoryConfig) (m : Nat)
    (hf : hc.Threshold = F32.fin false m) (h0 : 0 < m) (h1 : m < 2 ^ 149) :
    (normalizeHistoryConfig undef hc).2 =
        F32.toInt undef (F32.mul hc.Threshold (F32.ofInt (normalizeHistoryConfig undef hc).1.Size)) ∧
      (normalizeHistoryConfig undef hc).1.OnThreshold = hc.OnThreshold ∧
      (normalizeHistoryConfig undef hc).1.OnThresholdWithFetchCallback =
        hc.OnThresholdWithFetchCallback := by
  have hle : hc.Threshold.le0 = false := by
    rw [hf]
    have : m ≠ 0 := by omega
    simp [F32.le0, this]
  have hge : hc.Threshold.ge1 = false := by
    rw [hf]
    simp only [F32.ge1, Bool.not_false, Bool.true_and, decide_eq_false_iff_not]
    omega
  unfold normalizeHistoryConfig
  by_cases hs : hc.Size ≤ 0 <;> simp [hs, hle, hge]

theorem onScrollback_inv {fuel : Nat} {t : Term} {row : Int} {ltc : LockedTerminalContext}
    {t' : Term} {evs : List Event} (h : onScrollback fuel t row ltc = some (t', evs)) :
    ∃ t1, (t1 = t ∨ t1 = DropHistory t) ∧
      appendHistory fuel t1 (ltc.plainRenderLine row ++ [13, 10]) = some t' := by
  unfold onScrollback at h
  by_cases hu : usedBytes t > t.triggerCount
  · by_cases hc : t.onThresholdWithFetch = true
    · simp only [hu, hc, if_true] at h
      cases hf : unsafeFetch t ltc with
      | none => simp [hf] at h
      | some p =>
        obtain ⟨out, td⟩ := p
        have e := (unsafeFetch_state hf).1
        simp only [hf, Option.some_bind] at h
        refine ⟨td, Or.inr e, ?_⟩
        cases ha : appendHistory fuel td (ltc.plainRenderLine row ++ [13, 10]) with
        | none => simp [ha] at h
        | some t2 =>
          simp [ha] at h
          rw [h.1]
    · simp only [hu, hc, if_true, if_false, Option.some_bind] at h
      refine ⟨t, Or.inl rfl, ?_⟩
      cases ha : appendHistory fuel t (ltc.plainRenderLine row ++ [13, 10]) with
      | none => simp [ha] at h
      | some t2 =>
        simp [ha] at h
        rw [h.1]
  · simp only [hu, if_false, Option.some_bind] at h
    refine ⟨t, Or.inl rfl, ?_⟩
    cases ha : appendHistory fuel t (ltc.plainRenderLine row ++ [13, 10]) with
    | none => simp [ha] at h
    | some t2 =>
      simp [ha] at h
      rw [h.1]

theorem session_inv {t0 t : Term} (h0 : WF t0) (h : SessionReachable t0 t) :
    WF t ∧ SameConfig t0 t := by
  induction h with
  | init => exact ⟨h0, rfl, rfl, rfl, rfl⟩
  | scroll fuel t row ltc t' evs _ h ih =>
    obtain ⟨hwf, hc⟩ := ih
    obtain ⟨t1, ht1, ha⟩ := onScrollback_inv h
    have hwf1 : WF t1 ∧ SameConfig t t1 := by
      rcases ht1 with rfl | rfl
      · exact ⟨hwf, rfl, rfl, rfl, rfl⟩
      · exact ⟨WF_DropHistory hwf, rfl, rfl, rfl, rfl⟩
    obtain ⟨g1, g2⟩ := appendHistory_preserves fuel t1 _ t' hwf1.1 ha
    exact ⟨g1, (g2.1.trans hwf1.2.1).trans hc.1, (g2.2.1.trans hwf1.2.2.1).trans hc.2.1,
      (g2.2.2.1.trans hwf1.2.2.2.1).trans hc.2.2.1,
      (g2.2.2.2.trans hwf1.2.2.2.2).trans hc.2.2.2⟩
  | fetch t ltc out t' _ h ih =>
    obtain ⟨hwf, hc⟩ := ih
    obtain ⟨e, _⟩ := unsafeFetch_state h
    subst e
    exact ⟨WF_DropHistory hwf, hc⟩
  | dropHistory t _ ih =>
    exact ⟨WF_DropHistory ih.1, ih.2⟩

/-- C11, as stated, fails at the largest `int`: with `Size = 2^63 - 1` and
`Threshold = 1.0` the sum `hc.Size + 1` wraps around, and
`normalizeHistoryConfig` returns `triggerCount = -2^63`, not `Size + 1`. -/
theorem threshold_disabled_counterexample :
    exMaxConfig.Threshold.ge1 = true ∧
      ∀ undef : Int,
        (normalizeHistoryConfig undef exMaxConfig).1.Size = 9223372036854775807 ∧
        (normalizeHistoryConfig undef exMaxConfig).2 = -9223372036854775808 ∧
        (normalizeHistoryConfig undef exMaxConfig).2 ≠
          (normalizeHistoryConfig undef exMaxConfig).1.Size + 1 := by
  refine ⟨by decide, ?_⟩
  intro undef
  have hsz : (normalizeHistoryConfig undef exMaxConfig).1.Size = 9223372036854775807 := by
    rw [(normalize_size undef exMaxConfig).1]
    rfl
  have htc : (normalizeHistoryConfig undef exMaxConfig).2 = -9223372036854775808 := by
    rw [(normalize_ge1 undef exMaxConfig (by decide)).1, hsz]
    decide
  refine ⟨hsz, htc, ?_⟩
  rw [htc, hsz]
  decide

/-- C11, amended: a threshold fraction of at least one disables triggering.
For every `HistoryConfig` with `Threshold >= 1` and `Size` below the largest
`int` (`Size < 2^63 - 1`), `normalizeHistoryConfig` returns
`triggerCount = Size + 1` (`Size` after defaulting) and clears both
callbacks; and in every state that a session started with this configuration
reaches, `usedBytes() ≤ capacity`, so the test `used > triggerCount` of
`onScrollback` is false: `onScrollback` invokes no callback and takes no
snapshot, it only appends the line. -/
theorem threshold_disabled (undef : Int) (hc : HistoryConfig) (hge : hc.Threshold.ge1 = true)
    (hsize : hc.Size < 9223372036854775807) :
    (normalizeHistoryConfig undef hc).2 = (normalizeHistoryConfig undef hc).1.Size + 1 ∧
      (normalizeHistoryConfig undef hc).1.Size = (if hc.Size ≤ 0 then 4096 else hc.Size) ∧
      (normalizeHistoryConfig undef hc).1.OnThreshold = false ∧
      (normalizeHistoryConfig undef hc).1.OnThresholdWithFetchCallback = false ∧
      ∀ t : Term, SessionReachable (Start undef hc) t →
        t.triggerCount = (t.size : Int) + 1 ∧ t.onThreshold = false ∧
        t.onThresholdWithFetch = false ∧ usedBytes t ≤ t.size ∧
        ¬ (usedBytes t > t.triggerCount) ∧
        ∀ (fuel : Nat) (row : Int) (ltc : LockedTerminalContext), t.size < fuel →
          ∃ t', onScrollback fuel t row ltc = some (t', []) ∧
            appendHistory fuel t (ltc.plainRenderLine row ++ [13, 10]) = some t' := by
  obtain ⟨n0, n2, n3⟩ := normalize_ge1 undef hc hge
  obtain ⟨s1, s2, _⟩ := normalize_size undef hc
  have hlt : (normalizeHistoryConfig undef hc).1.Size < 9223372036854775807 := by
    rw [s1]
    split_ifs <;> omega
  have n1 : (normalizeHistoryConfig undef hc).2 =
      (normalizeHistoryConfig undef hc).1.Size + 1 := by
    rw [n0]
    exact wrapInt_of_range _ (by omega) (by omega)
  refine ⟨n1, s1, n2, n3, ?_⟩
  intro t ht
  have hpos : 1 ≤ (normalizeHistoryConfig undef hc).1.Size.toNat := by omega
  have h0 : WF (Start undef hc) := WF_newTerm _ _ _ _ hpos
  obtain ⟨hwf, hcfg⟩ := session_inv h0 ht
  have hr := usedBytes_range hwf
  have hsz : (t.size : Int) = (normalizeHistoryConfig undef hc).1.Size := by
    rw [hcfg.1]
    simp only [Start, newTerm]
    omega
  have htc : t.triggerCount = (t.size : Int) + 1 := by
    rw [hcfg.2.1, hsz]
    simp only [Start, newTerm]
    exact n1
  have hot : t.onThreshold = false := by
    rw [hcfg.2.2.1]
    simp only [Start, newTerm]
    exact n2
  have hof : t.onThresholdWithFetch = false := by
    rw [hcfg.2.2.2]
    simp only [Start, newTerm]
    exact n3
  have hu : ¬ (usedBytes t > t.triggerCount) := by omega
  refine ⟨htc, hot, hof, hr.2, hu, ?_⟩
  intro fuel row ltc hfuel
  obtain ⟨t', h1, _⟩ := appendHistory_any fuel t (ltc.plainRenderLine row ++ [13, 10]) hwf hfuel
  refine ⟨t', ?_, h1⟩
  simp [onScrollback, hu, h1]

/-- C11 (amended) at a concrete input: capacity 8, threshold `1.0`, both
callbacks set. -/
theorem threshold_disabled_witness :
    exOffConfig.Threshold.ge1 = true ∧ exOffConfig.Size < 9223372036854775807 ∧
    (normalizeHistoryConfig 0 exOffConfig).2 = (normalizeHistoryConfig 0 exOffConfig).1.Size + 1 ∧
      (normalizeHistoryConfig 0 exOffConfig).1.Size =
        (if exOffConfig.Size ≤ 0 then 4096 else exOffConfig.Size) ∧
      (normalizeHistoryConfig 0 exOffConfig).1.OnThreshold = false ∧
      (normalizeHistoryConfig 0 exOffConfig).1.OnThresholdWithFetchCallback = false ∧
      ∀ t : Term, SessionReachable (Start 0 exOffConfig) t →
        t.triggerCount = (t.size : Int) + 1 ∧ t.onThreshold = false ∧
        t.onThresholdWithFetch = false ∧ usedBytes t ≤ t.size ∧
        ¬ (usedBytes t > t.triggerCount) ∧
        ∀ (fuel : Nat) (row : Int) (ltc : LockedTerminalContext), t.size < fuel →
          ∃ t', onScrollback fuel t row ltc = some (t', []) ∧
            appendHistory fuel t (ltc.plainRenderLine row ++ [13, 10]) = some t' :=
  ⟨by decide, by decide, threshold_disabled 0 exOffConfig (by decide) (by decide)⟩

theorem normalize_unfold (undef : Int) (hc : HistoryConfig) :
    normalizeHistoryConfig undef hc =
      if (if hc.Threshold.le0 = true then defaultHistoryThreshold else hc.Threshold).ge1 = true
      then
        ({ Size := if hc.Size ≤ 0 then 4096 else hc.Size,
           Threshold := if hc.Threshold.le0 = true then defaultHistoryThreshold
            else hc.Threshold,
           OnThreshold := false, OnThresholdWithFetchCallback := false },
          wrapInt ((if hc.Size ≤ 0 then 4096 else hc.Size) + 1))
      else
        ({ Size := if hc.Size ≤ 0 then 4096 else hc.Size,
           Threshold := if hc.Threshold.le0 = true then defaultHistoryThreshold
            else hc.Threshold,
           OnThreshold := hc.OnThreshold,
           OnThresholdWithFetchCallback := hc.OnThresholdWithFetchCallback },
          F32.toInt undef
            (F32.mul (if hc.Threshold.le0 = true then defaultHistoryThreshold else hc.Threshold)
              (F32.ofInt (if hc.Size ≤ 0 then 4096 else hc.Size)))) := by
  unfold normalizeHistoryConfig
  by_cases hs : hc.Size ≤ 0 <;> by_cases hl : hc.Threshold.le0 = true <;>
    simp only [hs, hl, if_true, if_false, defaultHistorySize] <;> split_ifs <;> rfl

theorem normalize_fraction_norm (undef : Int) (hc : HistoryConfig) (m : Nat)
    (hf : (normalizeHistoryConfig undef hc).1.Threshold = F32.fin false m) (h1 : m < 2 ^ 149) :
    (normalizeHistoryConfig undef hc).2 =
      F32.toInt undef (F32.mul (F32.fin false m)
        (F32.ofInt (normalizeHistoryConfig undef hc).1.Size)) := by
  have hth := (normalize_size undef hc).2.2
  rw [hf] at hth
  have hge : (F32.fin false m).ge1 = false := by
    simp only [F32.ge1, Bool.not_false, Bool.true_and, decide_eq_false_iff_not]
    omega
  rw [normalize_unfold, ← hth, hge]
  simp

theorem mul_toInt_exact (undef : Int) (m n : Nat) (h1 : m < 2 ^ 149) (hn : n < 2 ^ 24)
    (hex : ∃ k j, m * n = k * 2 ^ j ∧ k < 2 ^ 24) :
    F32.toInt undef (F32.mul (F32.fin false m) (F32.ofInt (n : Int))) =
      ⌊(F32.fin false m).toRat * ((n : Int) : ℚ)⌋ := by
  obtain ⟨k, j, hkj, hk⟩ := hex
  have hmn : m * n < 2 ^ 149 * 2 ^ 24 :=
    Nat.mul_lt_mul_of_lt_of_le h1 hn.le (Nat.two_pow_pos _)
  have hprod : m * (n * 2 ^ 149) = k * 2 ^ (j + 149) := by
    rw [← Nat.mul_assoc, hkj, Nat.mul_assoc, ← Nat.pow_add]
  have hround : roundF32 false (k * 2 ^ (j + 149)) 298 = F32.fin false (k * 2 ^ j) := by
    have := roundF32_exact false k (j + 149) 298 hk (by omega) (by
      have e : j + 149 + 149 - 298 = j := by omega
      rw [e, ← hkj]
      calc m * n < 2 ^ 149 * 2 ^ 24 := hmn
        _ < 2 ^ 277 := by norm_num)
    have e : j + 149 + 149 - 298 = j := by omega
    rw [e] at this
    exact this
  have hsmall : m * n / 2 ^ 149 < 2 ^ 63 := by
    have : m * n / 2 ^ 149 < 2 ^ 24 := by
      rw [Nat.div_lt_iff_lt_mul (Nat.two_pow_pos _)]
      calc m * n < 2 ^ 149 * 2 ^ 24 := hmn
        _ = 2 ^ 24 * 2 ^ 149 := Nat.mul_comm _ _
    calc m * n / 2 ^ 149 < 2 ^ 24 := this
      _ < 2 ^ 63 := by norm_num
  have hm : F32.mul (F32.fin false m) (F32.fin false (n * 2 ^ 149)) =
      F32.fin false (m * n) := by
    rw [F32.mul, hprod, hkj]
    exact hround
  obtain ⟨D, hD⟩ : ∃ D : Nat, D = 2 ^ 149 := ⟨_, rfl⟩
  have ht : F32.toInt undef (F32.fin false (m * n)) = ((m * n / D : Nat) : Int) := by
    show (if false = true then
        (if m * n / 2 ^ 149 ≤ 2 ^ 63 then -((m * n / 2 ^ 149 : Nat) : Int) else undef)
      else (if m * n / 2 ^ 149 < 2 ^ 63 then ((m * n / 2 ^ 149 : Nat) : Int) else undef)) = _
    rw [if_neg Bool.false_ne_true, if_pos hsmall, hD]
  have e : (F32.fin false m).toRat * ((n : Int) : ℚ) = ((m * n : Nat) : ℚ) / (D : ℚ) := by
    show (if false = true then (-1 : ℚ) else 1) * ((m : ℚ) / 2 ^ 149) * ((n : Int) : ℚ) = _
    rw [hD]
    push_cast
    ring
  rw [F32_ofInt_exact n hn]
  rw [hm]
  rw [ht]
  rw [e]
  rw [Rat.floor_natCast_div_natCast]
  exact (Int.natCast_div _ _).symm

theorem bitLen_eq_of_bounds (n k : Nat) (h1 : 2 ^ k ≤ n) (h2 : n < 2 ^ (k + 1)) :
    bitLen n = k + 1 := by
  have hle : bitLen n ≤ k + 1 := (bitLen_le_iff n (k + 1)).mpr h2
  have hnl : ¬ bitLen n ≤ k := by
    rw [bitLen_le_iff]
    omega
  omega

theorem ofInt_big : F32.ofInt 16777219 = F32.fin false (8388610 * 2 ^ 150) := by
  have hb : bitLen 16777219 = 25 := bitLen_eq_of_bounds 16777219 24 (by norm_num) (by norm_num)
  have hn : decide ((16777219 : Int) < 0) = false := by decide
  have ha : (16777219 : Int).natAbs = 16777219 := rfl
  have hs : (max ((25 : Nat) : Int) (((0 : Nat) : Int) - 125)) - 24 = 1 := by decide
  have hr : roundShift 16777219 1 = 8388610 := by decide
  unfold F32.ofInt roundF32
  simp only [hn, ha, hb, hs]
  have h1 : ¬ ((1 : Int) ≤ 0) := by decide
  have h2 : ((1 : Int) + 149 - ((0 : Nat) : Int)).toNat = 150 := by decide
  have h3 : (1 : Int).toNat = 1 := rfl
  rw [if_neg h1, h2, h3, hr]
  have h4 : 8388610 * 2 ^ 150 < 2 ^ 277 := by norm_num
  rw [if_pos h4]

theorem normalize_big (undef : Int) :
    (normalizeHistoryConfig undef exBigConfig).2 = 8388610 := by
  have hth : (normalizeHistoryConfig undef exBigConfig).1.Threshold = F32.fin false (2 ^ 148) := by
    rw [(normalize_size undef exBigConfig).2.2]
    rfl
  have hsz : (normalizeHistoryConfig undef exBigConfig).1.Size = 16777219 := by
    rw [(normalize_size undef exBigConfig).1]
    rfl
  rw [normalize_fraction_norm undef exBigConfig (2 ^ 148) hth (by norm_num), hsz, ofInt_big]
  have hp : 2 ^ 148 * (8388610 * 2 ^ 150) = 4194305 * 2 ^ 299 := by norm_num
  have hround := roundF32_exact false 4194305 299 298 (by norm_num) (by omega) (by norm_num)
  rw [F32.mul, hp, bne_self_eq_false, hround]
  have hd : 4194305 * 2 ^ (299 + 149 - 298) / 2 ^ 149 = 8388610 := by norm_num
  show (if false = true then
      (if 4194305 * 2 ^ (299 + 149 - 298) / 2 ^ 149 ≤ 2 ^ 63 then
        -((4194305 * 2 ^ (299 + 149 - 298) / 2 ^ 149 : Nat) : Int) else undef)
    else (if 4194305 * 2 ^ (299 + 149 - 298) / 2 ^ 149 < 2 ^ 63 then
      ((4194305 * 2 ^ (299 + 149 - 298) / 2 ^ 149 : Nat) : Int) else undef)) = _
  rw [if_neg Bool.false_ne_true, hd]
  rfl

/-- C12, as stated, fails on the formula `triggerCount = floor(f * Size)`:
the product is computed in `float32`.  With capacity `2^24 + 3 = 16777219`
and threshold `0.5`, `float32(Size)` rounds to `16777220`, so that
`normalizeHistoryConfig` returns `8388610`, while
`floor(0.5 * 16777219) = 8388609`. -/
theorem normalize_floor_counterexample :
    exBigConfig.Threshold.le0 = false ∧ exBigConfig.Threshold.ge1 = false ∧
      exBigConfig.Threshold.toRat = 1 / 2 ∧
      F32.ofInt exBigConfig.Size = F32.fin false (16777220 * 2 ^ 149) ∧
      ∀ undef : Int,
        (normalizeHistoryConfig undef exBigConfig).1.Size = 16777219 ∧
        (normalizeHistoryConfig undef exBigConfig).2 = 8388610 ∧
        ⌊exBigConfig.Threshold.toRat * (16777219 : ℚ)⌋ = 8388609 ∧
        (normalizeHistoryConfig undef exBigConfig).2 ≠
          ⌊exBigConfig.Threshold.toRat *
            (((normalizeHistoryConfig undef exBigConfig).1.Size : Int) : ℚ)⌋ := by
  have hrat : exBigConfig.Threshold.toRat = 1 / 2 := by
    show (if false = true then (-1 : ℚ) else 1) * (((2 ^ 148 : Nat) : ℚ) / 2 ^ 149) = 1 / 2
    norm_num
  have hfloor : ⌊exBigConfig.Threshold.toRat * (16777219 : ℚ)⌋ = 8388609 := by
    rw [hrat, Int.floor_eq_iff]
    norm_num
  have hof : F32.ofInt exBigConfig.Size = F32.fin false (16777220 * 2 ^ 149) := by
    show F32.ofInt 16777219 = _
    rw [ofInt_big]
    congr 1
  refine ⟨by decide, by decide, hrat, hof, ?_⟩
  intro undef
  have hsz : (normalizeHistoryConfig undef exBigConfig).1.Size = 16777219 := by
    rw [(normalize_size undef exBigConfig).1]
    rfl
  refine ⟨hsz, normalize_big undef, hfloor, ?_⟩
  rw [normalize_big, hsz]
  have : (((16777219 : Int) : ℚ)) = (16777219 : ℚ) := by norm_num
  rw [this, hfloor]
  decide

/-- C12, amended: configuration normalization never rejects and always
yields a positive capacity.  For every `HistoryConfig`,
`normalizeHistoryConfig` replaces `Size <= 0` by 4096 and keeps a positive
`Size`, and replaces `Threshold <= 0` by `float32(0.6)`; when the threshold
after defaulting is a fraction `f` with `0 < f < 1`, the returned
`triggerCount` is the `float32` product of `f` and `float32(Size)` converted
to `int`, which is `floor(f * Size)` whenever `Size < 2^24` and `f * Size`
has at most 24 significant bits (neither the conversion nor the product
rounds); for the zero-valued configuration the result is `Size = 4096` and
`triggerCount = 2457`. -/
theorem normalize_config (undef : Int) (hc : HistoryConfig) :
    (normalizeHistoryConfig undef hc).1.Size = (if hc.Size ≤ 0 then 4096 else hc.Size) ∧
      0 < (normalizeHistoryConfig undef hc).1.Size ∧
      (normalizeHistoryConfig undef hc).1.Threshold =
        (if hc.Threshold.le0 = true then defaultHistoryThreshold else hc.Threshold) ∧
      (∀ m : Nat, (normalizeHistoryConfig undef hc).1.Threshold = F32.fin false m →
        0 < m → m < 2 ^ 149 →
        (normalizeHistoryConfig undef hc).2 =
          F32.toInt undef (F32.mul (F32.fin false m)
            (F32.ofInt (normalizeHistoryConfig undef hc).1.Size)) ∧
        ((normalizeHistoryConfig undef hc).1.Size < 2 ^ 24 →
          (∃ k j, m * (normalizeHistoryConfig undef hc).1.Size.toNat = k * 2 ^ j ∧ k < 2 ^ 24) →
          (normalizeHistoryConfig undef hc).2 =
            ⌊(F32.fin false m).toRat * (((normalizeHistoryConfig undef hc).1.Size : Int) : ℚ)⌋)) ∧
      (hc = exZeroConfig →
        (normalizeHistoryConfig undef hc).1.Size = 4096 ∧
        (normalizeHistoryConfig undef hc).2 = 2457) := by
  obtain ⟨s1, s2, s3⟩ := normalize_size undef hc
  have hfrac : ∀ m : Nat, (normalizeHistoryConfig undef hc).1.Threshold = F32.fin false m →
      0 < m → m < 2 ^ 149 →
      (normalizeHistoryConfig undef hc).2 =
        F32.toInt undef (F32.mul (F32.fin false m)
          (F32.ofInt (normalizeHistoryConfig undef hc).1.Size)) ∧
      ((normalizeHistoryConfig undef hc).1.Size < 2 ^ 24 →
        (∃ k j, m * (normalizeHistoryConfig undef hc).1.Size.toNat = k * 2 ^ j ∧ k < 2 ^ 24) →
        (normalizeHistoryConfig undef hc).2 =
          ⌊(F32.fin false m).toRat *
            (((normalizeHistoryConfig undef hc).1.Size : Int) : ℚ)⌋) := by
    intro m hm _ h1
    have hprod := normalize_fraction_norm undef hc m hm h1
    refine ⟨hprod, ?_⟩
    intro hsmall hex
    obtain ⟨n, hn⟩ : ∃ n : Nat, (normalizeHistoryConfig undef hc).1.Size = (n : Int) :=
      ⟨(normalizeHistoryConfig undef hc).1.Size.toNat, by omega⟩
    rw [hn] at hsmall hex
    rw [hprod, hn]
    simp only [Int.toNat_ofNat] at hex
    exact mul_toInt_exact undef m n h1 (by exact_mod_cast hsmall) hex
  refine ⟨s1, s2, s3, hfrac, ?_⟩
  intro hz
  subst hz
  have hsz : (normalizeHistoryConfig undef exZeroConfig).1.Size = 4096 := by
    rw [s1]; rfl
  have hth : (normalizeHistoryConfig undef exZeroConfig).1.Threshold =
      F32.fin false (10066330 * 2 ^ 125) := by
    rw [s3]; rfl
  refine ⟨hsz, ?_⟩
  obtain ⟨_, hex⟩ := hfrac (10066330 * 2 ^ 125) hth (by norm_num) (by norm_num)
  rw [hex (by rw [hsz]; norm_num) ⟨10066330, 137, by
    rw [hsz]
    show 10066330 * 2 ^ 125 * 4096 = 10066330 * 2 ^ 137
    norm_num, by norm_num⟩, hsz]
  have hrat : (F32.fin false (10066330 * 2 ^ 125)).toRat = 10066330 / 2 ^ 24 := by
    show (if false = true then (-1 : ℚ) else 1) *
      (((10066330 * 2 ^ 125 : Nat) : ℚ) / 2 ^ 149) = _
    norm_num
  rw [hrat, Int.floor_eq_iff]
  norm_num

/-- C12 (amended) at a concrete input: the zero-valued configuration. -/
theorem normalize_config_witness :
    (normalizeHistoryConfig 0 exZeroConfig).1.Size = 4096 ∧
      (normalizeHistoryConfig 0 exZeroConfig).2 = 2457 :=
  (normalize_config 0 exZeroConfig).2.2.2.2 rfl

end Immterm
